import Mathlib

/-!
Verification of the repository-maintenance CLI of the ShapeDiver MonorepoTemplate.

This file gives a shallow embedding, in Lean 4, of the pure logic of the
`repomaintain` python scripts:

  * the semantic-version requirement evaluator of `cmd_check_peers.py`
    (`_extract_version_from_string`, `_version_satisfies_requirement`,
    `_version_satisfies_single_requirement`, `_satisfies_caret_range`,
    `_satisfies_tilde_range`);
  * the internal-dependency rewriting of `cmd_publish.py`
    (`update_version` / `update_internal_dependency`) and of
    `cmd_update.py` (`prepare_components`, `backup_package_files`,
    `cleanup_on_success`);
  * the configuration loader `load_cli_config` of `utils.py`;
  * the orchestration of `cmd_publish.run` together with the top-level
    error handler `cmd_wrapper` of `cli.py`, as an effect-trace model.

Python strings are modelled as `List Char` (with `String` wrappers where
convenient), python dicts as insertion-ordered association lists, raised
exceptions as `Except`/`Option` results, and external collaborators
(subprocesses, git, registries, interactive prompts) as oracle fields of an
environment record.  All definitions are executable.
-/

/-- A concrete semantic version `major.minor.patch`.  Mirrors the use of
`semver.Version` in `cmd_check_peers.py`, which only ever constructs
three-component versions without prerelease or build parts. -/
structure Ver where
  major : Nat
  minor : Nat
  patch : Nat
deriving DecidableEq, Repr

/-- Mirrors `semver.Version.compare`: lexicographic comparison of the
`(major, minor, patch)` triple. -/
def verCompare (x y : Ver) : Ordering :=
  if x.major < y.major then .lt
  else if y.major < x.major then .gt
  else if x.minor < y.minor then .lt
  else if y.minor < x.minor then .gt
  else if x.patch < y.patch then .lt
  else if y.patch < x.patch then .gt
  else .eq

/-- The strict lexicographic order on version triples (the mathematical
order the spec's `<` refers to). -/
def verLtP (x y : Ver) : Prop :=
  x.major < y.major ∨
    (x.major = y.major ∧ (x.minor < y.minor ∨
      (x.minor = y.minor ∧ x.patch < y.patch)))

/-- Non-strict lexicographic order on version triples. -/
def verLeP (x y : Ver) : Prop := verLtP x y ∨ x = y

instance (x y : Ver) : Decidable (verLtP x y) := by unfold verLtP; infer_instance

instance (x y : Ver) : Decidable (verLeP x y) := by unfold verLeP; infer_instance

/-! ### Character-list utilities

Small executable models of the python string operations used by the
scripts (`str.strip`, `str.split`, `re` searches).  They are written by
structural recursion so that all witnesses evaluate inside the kernel. -/

/-- Python `str.strip()` on a character list: drop whitespace from both
ends. -/
def trimCore (l : List Char) : List Char :=
  ((l.dropWhile Char.isWhitespace).reverse.dropWhile Char.isWhitespace).reverse

/-- Does the list contain two consecutive `'|'` characters?  Models the
python test `"||" in requirement`. -/
def hasBars : List Char → Bool
  | [] => false
  | [_] => false
  | c :: d :: rest => (c = '|' && d = '|') || hasBars (d :: rest)

/-- Python `str.split("||")`: split on every (non-overlapping, leftmost)
occurrence of two consecutive bars, keeping empty parts. -/
def splitOnBars : List Char → List (List Char)
  | [] => [[]]
  | [c] => [[c]]
  | c :: d :: rest =>
    if c = '|' && d = '|' then [] :: splitOnBars rest
    else
      match splitOnBars (d :: rest) with
      | [] => [[c]]
      | h :: t => (c :: h) :: t

/-- Helper for `wsTokens`; `cur` is the (reversed) word being read. -/
def wsTokensAux (cur : List Char) : List Char → List (List Char)
  | [] => if cur.isEmpty then [] else [cur.reverse]
  | c :: rest =>
    if c.isWhitespace then
      if cur.isEmpty then wsTokensAux [] rest
      else cur.reverse :: wsTokensAux [] rest
    else wsTokensAux (c :: cur) rest

/-- Python `str.split()` with no argument: split on runs of whitespace and
drop empty tokens. -/
def wsTokens (l : List Char) : List (List Char) := wsTokensAux [] l

/-- `startsWithChars pat l` models python `str.startswith`. -/
def startsWithChars : List Char → List Char → Bool
  | [], _ => true
  | _ :: _, [] => false
  | p :: ps, c :: cs => p = c && startsWithChars ps cs

/-- The longest prefix of `l` matching the regex `\d+(?:\.\d+)*`, assuming
`l` starts with a digit (mirrors the `re.search` in
`_extract_version_from_string`, which anchors at the first digit). -/
def verRun : List Char → List Char
  | [] => []
  | [c] => if c.isDigit then [c] else []
  | c :: d :: rest =>
    if c.isDigit then c :: verRun (d :: rest)
    else if c = '.' && d.isDigit then c :: verRun (d :: rest)
    else []

/-- Python `str.split(".")` on a character list (keeps empty parts). -/
def splitDots : List Char → List (List Char)
  | [] => [[]]
  | c :: rest =>
    if c = '.' then [] :: splitDots rest
    else
      match splitDots rest with
      | [] => [[c]]
      | h :: t => (c :: h) :: t

/-- Mirrors `while len(parts) < 3: parts.append("0")` followed by
`parts[:3]`. -/
def padTo3 (comps : List (List Char)) : List (List Char) :=
  (comps ++ List.replicate (3 - comps.length) ['0']).take 3

/-- A valid numeric identifier per the semver grammar used by
`semver.Version.parse` (external `semver` python package): a nonempty
digit string with no leading zero.  Modelled from the spec: the strict
`major.minor.patch` parse of the external library, which rejects
components such as `01`. -/
def validNum : List Char → Bool
  | [] => false
  | [c] => c.isDigit
  | c :: rest => c.isDigit && c ≠ '0' && rest.all Char.isDigit

/-- Numeric value of a digit string. -/
def digitsToNat (l : List Char) : Nat :=
  l.foldl (fun acc c => 10 * acc + (c.toNat - 48)) 0

/-- Modelled from the spec: `semver.Version.parse` (external `semver`
python package) applied to a string made of exactly three dot-joined
components; succeeds iff each component is a valid semver numeral. -/
def semverParse : List (List Char) → Option Ver
  | [a, b, c] =>
    if validNum a && validNum b && validNum c then
      some ⟨digitsToNat a, digitsToNat b, digitsToNat c⟩
    else none
  | _ => none

/-- The characters removed by `re.sub(r"^[~^>=<]+", "", ...)`. -/
def opChars : List Char := ['~', '^', '>', '=', '<']

/-- `version_str.strip()` followed by the leading-operator strip of
`_extract_version_from_string`. -/
def cleanCore (l : List Char) : List Char :=
  (trimCore l).dropWhile (fun c => decide (c ∈ opChars))

/-- The first regex match of `\d+(?:\.\d+)*` in the cleaned string, or
`none` when the string contains no digit. -/
def firstDigitRun (l : List Char) : Option (List Char) :=
  match l.dropWhile (fun c => !c.isDigit) with
  | [] => none
  | c :: rest => some (verRun (c :: rest))

/-- Embedding of `_extract_version_from_string` (cmd_check_peers.py,
lines 40-70): strip whitespace and leading operator characters, take the
first dot-delimited digit run, right-pad with `"0"` to three components,
and parse the result strictly. -/
def extractCore (l : List Char) : Option Ver :=
  match firstDigitRun (cleanCore l) with
  | none => none
  | some run => semverParse (padTo3 (splitDots run))

/-- String wrapper for `_extract_version_from_string`. -/
def extractVersionFromString (s : String) : Option Ver := extractCore s.data

/-! ### The requirement evaluator of `cmd_check_peers.py` -/

/-- Embedding of `_satisfies_caret_range` (lines 354-369): `none` anchor
is treated as satisfied; otherwise `anchor ≤ v < (anchor.major+1).0.0`. -/
def satisfiesCaretRangeCore (v : Ver) (req : List Char) : Bool :=
  match extractCore req with
  | none => true
  | some rv =>
    if verCompare v rv = .lt then false
    else verCompare v ⟨rv.major + 1, 0, 0⟩ = .lt

/-- Embedding of `_satisfies_tilde_range` (lines 372-387). -/
def satisfiesTildeRangeCore (v : Ver) (req : List Char) : Bool :=
  match extractCore req with
  | none => true
  | some rv =>
    if verCompare v rv = .lt then false
    else verCompare v ⟨rv.major, rv.minor + 1, 0⟩ = .lt

/-- Embedding of `_version_satisfies_single_requirement` (lines 302-351):
dispatch on the leading operator; comparator and exact branches return
`false` when the anchor cannot be extracted. -/
def versionSatisfiesSingleCore (v : Ver) (req0 : List Char) : Bool :=
  let req := trimCore req0
  if req = ['*'] then true
  else if startsWithChars ['^'] req then satisfiesCaretRangeCore v (req.drop 1)
  else if startsWithChars ['~'] req then satisfiesTildeRangeCore v (req.drop 1)
  else if startsWithChars ['>', '='] req then
    match extractCore (req.drop 2) with
    | none => false
    | some rv => !(verCompare v rv = .lt)
  else if startsWithChars ['<', '='] req then
    match extractCore (req.drop 2) with
    | none => false
    | some rv => !(verCompare v rv = .gt)
  else if startsWithChars ['>'] req then
    match extractCore (req.drop 1) with
    | none => false
    | some rv => verCompare v rv = .gt
  else if startsWithChars ['<'] req then
    match extractCore (req.drop 1) with
    | none => false
    | some rv => verCompare v rv = .lt
  else if startsWithChars ['='] req then
    match extractCore (req.drop 1) with
    | none => false
    | some rv => verCompare v rv = .eq
  else
    match extractCore req with
    | none => false
    | some rv => verCompare v rv = .eq

/-- Embedding of `_version_satisfies_requirement` (lines 278-299): OR
conditions are split on `"||"` first and each alternative is passed
directly to the single-requirement evaluator; only requirements without
`"||"` are split on whitespace into AND conditions.  The python
`try/except` wrapper never fires because every branch is total; the
function is total here by construction. -/
def versionSatisfiesRequirementCore (v : Ver) (req : List Char) : Bool :=
  if hasBars req then
    (splitOnBars req).any (fun cond => versionSatisfiesSingleCore v (trimCore cond))
  else
    let toks := wsTokens (trimCore req)
    if 1 < toks.length then toks.all (fun cond => versionSatisfiesSingleCore v cond)
    else versionSatisfiesSingleCore v (trimCore req)

/-- String wrapper for `_version_satisfies_requirement`. -/
def versionSatisfiesRequirement (v : Ver) (req : String) : Bool :=
  versionSatisfiesRequirementCore v req.data

/-- String wrapper for `_version_satisfies_single_requirement`. -/
def versionSatisfiesSingle (v : Ver) (req : String) : Bool :=
  versionSatisfiesSingleCore v req.data

/-! ### Spec-words evaluator and the NpmSpec containment model -/

/-- Definition following the spec's words (not the code), for comparison
with `versionSatisfiesRequirementCore`: "OR (`||`) split first, then AND
(space) split within each OR branch, then single-term evaluation". -/
def specOrThenAndEval (v : Ver) (req : String) : Bool :=
  (splitOnBars req.data).any fun alt =>
    (wsTokens (trimCore alt)).all fun t => versionSatisfiesSingleCore v t

/-- Modelled from the spec: strict parse of a full version string by the
external `semantic_version.Version` constructor (used by `update_version`
and `prepare_components`); requires exactly `major.minor.patch`. -/
def verParseStrict (l : List Char) : Option Ver := semverParse (splitDots l)

/-- Modelled from the spec: the containment test
`semver.Version(version) in semver.NpmSpec(range)` of the external
`semantic_version` python library, evaluated with the VersionRange
semantics of spec sections 3 and 4.1 (OR split, then AND split, then
single terms).  An unparsable concrete version (where the library would
raise) is treated as not contained. -/
def npmSpecContains (range version : String) : Bool :=
  match verParseStrict version.data with
  | none => false
  | some v => specOrThenAndEval v range

/-! ### Manifests and dependency maps

A `package.json` manifest is modelled by its `version` field and its
`dependencies` / `devDependencies` maps, as insertion-ordered association
lists with unique keys (python dict semantics). -/

/-- Association-list lookup, mirroring python `d[k]` / `k in d` on dicts. -/
def getVal {α : Type} (n : String) : List (String × α) → Option α
  | [] => none
  | (k, v) :: rest => if k = n then some v else getVal n rest

/-- In-place value update `d[k] = v` for an existing key (keys and order
preserved). -/
def setVal {α : Type} (n : String) (v : α) : List (String × α) → List (String × α)
  | [] => []
  | (k, w) :: rest =>
    if k = n then (k, v) :: setVal n v rest else (k, w) :: setVal n v rest

/-- Python `del d[k]`: remove the entry with key `n`, preserving order of
the remaining entries. -/
def eraseKey {α : Type} (n : String) : List (String × α) → List (String × α)
  | [] => []
  | (k, w) :: rest =>
    if k = n then eraseKey n rest else (k, w) :: eraseKey n rest

/-- A component manifest (`package.json`).  An absent `dependencies` or
`devDependencies` key is modelled by the empty list, which is equivalent
for every membership test the scripts perform. -/
structure Manifest where
  version : String
  deps : List (String × String)
  devDeps : List (String × String)
deriving DecidableEq, Repr

/-! ### `cmd_publish.update_version` -/

/-- The regex `^[^ \d]*` of `update_version`: the leading run of
characters that are neither a digit nor a space. -/
def semverSpecifierOf (req : String) : String :=
  ⟨req.data.takeWhile fun c => !c.isDigit && c ≠ ' '⟩

/-- The dependency-rewriting loop of `update_version` (cmd_publish.py,
lines 546-566) for one manifest: for each `(name, version)` of the
publishable-component map, in order, rewrite the runtime entry if the
name is a runtime dependency, else the development entry if it is a
development dependency; the new requirement is `prefix + version`, and a
forced-update record `name ↦ "old -> new"` is produced when the new
concrete version is not contained in the old range
(`update_internal_dependency`, lines 523-544). -/
def applyUpdates : List (String × String) → Manifest → Manifest × List (String × String)
  | [], m => (m, [])
  | (name, version) :: rest, m =>
    match getVal name m.deps with
    | some old =>
      let nv := semverSpecifierOf old ++ version
      let r := applyUpdates rest { m with deps := setVal name nv m.deps }
      if npmSpecContains old version then r
      else (r.1, (name, old ++ " -> " ++ nv) :: r.2)
    | none =>
      match getVal name m.devDeps with
      | some old =>
        let nv := semverSpecifierOf old ++ version
        let r := applyUpdates rest { m with devDeps := setVal name nv m.devDeps }
        if npmSpecContains old version then r
        else (r.1, (name, old ++ " -> " ++ nv) :: r.2)
      | none => applyUpdates rest m

/-- `update_version` restricted to a single component `cname` with
manifest `m`: bump the component's own `version` field when it is being
published, then rewrite its internal dependency entries. -/
def updateVersionComponent (pubMap : List (String × String)) (cname : String)
    (m : Manifest) : Manifest × List (String × String) :=
  let m1 :=
    match getVal cname pubMap with
    | some nv => { m with version := nv }
    | none => m
  applyUpdates pubMap m1

/-! ### `cmd_update.prepare_components` -/

/-- A warning emitted by `prepare_components` for an internal dependency
whose declared range does not cover the local version: records the
dependency name, the declared range and the local concrete version. -/
structure StripWarning where
  depName : String
  range : String
  localVersion : String
deriving DecidableEq, Repr

/-- The per-manifest loop of `prepare_components` (cmd_update.py, lines
151-207): for each `(name, localVersion)` of the component map, in order,
examine the runtime entry if present, else the development entry; a
covering entry (`semver.Version(local) in semver.NpmSpec(range)`) is
deleted, a non-covering one is kept and a warning is emitted. -/
def prepareApply : List (String × String) → Manifest → Manifest × List StripWarning
  | [], m => (m, [])
  | (name, localVersion) :: rest, m =>
    match getVal name m.deps with
    | some range =>
      if npmSpecContains range localVersion then
        prepareApply rest { m with deps := eraseKey name m.deps }
      else
        let r := prepareApply rest m
        (r.1, ⟨name, range, localVersion⟩ :: r.2)
    | none =>
      match getVal name m.devDeps with
      | some range =>
        if npmSpecContains range localVersion then
          prepareApply rest { m with devDeps := eraseKey name m.devDeps }
        else
          let r := prepareApply rest m
          (r.1, ⟨name, range, localVersion⟩ :: r.2)
      | none => prepareApply rest m

/-! ### `cmd_update.backup_package_files` and `cleanup_on_success`

File-system state of one component, restricted to the four files these
functions touch.  `none` models an absent file. -/

/-- Per-component file state: `package.json`, `package.json.bak`,
`package-lock.json` and `package-lock.json.bak`.  Manifest files carry
parsed content; lock files are opaque strings. -/
structure CompFiles where
  name : String
  pkg : Option Manifest
  pkgBak : Option Manifest
  lock : Option String
  lockBak : Option String
deriving DecidableEq, Repr

/-- `backup_package_files` (cmd_update.py, lines 129-148) on one
component: a missing `package.json` is a fatal `RuntimeError`; the lock
file is backed up only when it exists (silently skipped otherwise). -/
def backupComponentFiles (c : CompFiles) : Except String CompFiles :=
  match c.pkg with
  | none =>
    .error ("Error: The Lerna component '" ++ c.name ++
      "' does not contain a package.json file.")
  | some m =>
    .ok { c with
      pkgBak := some m
      lockBak :=
        match c.lock with
        | some s => some s
        | none => c.lockBak }

/-- `backup_package_files` over the component list. -/
def backupPackageFiles : List CompFiles → Except String (List CompFiles)
  | [] => .ok []
  | c :: rest =>
    match backupComponentFiles c with
    | .error e => .error e
    | .ok c' =>
      match backupPackageFiles rest with
      | .error e => .error e
      | .ok rest' => .ok (c' :: rest')

/-- The merge performed by `cleanup_on_success`: start from the original
(backup) manifest and assign every dependency version found in the
updated manifest (`pkg_json_original[kind][dep] = version`; python dict
assignment adds the key when missing). -/
def overrideAll (orig upd : List (String × String)) : List (String × String) :=
  upd.foldl
    (fun acc p =>
      match getVal p.1 acc with
      | some _ => setVal p.1 p.2 acc
      | none => acc ++ [p])
    orig

/-- Restore step of `cleanup_on_success`: the original manifest with the
updated dependency versions written over it. -/
def mergeRestore (updated original : Manifest) : Manifest :=
  { original with
    deps := overrideAll original.deps updated.deps
    devDeps := overrideAll original.devDeps updated.devDeps }

/-- `cleanup_on_success` (cmd_update.py, lines 227-256) on one component:
read `package.json` and `package.json.bak` (a missing file raises), write
the merged manifest back, then `os.remove` both backup files -- the
lock-file backup removal is unconditional, so a missing
`package-lock.json.bak` raises `FileNotFoundError`. -/
def cleanupOnSuccessComp (c : CompFiles) : Except String CompFiles :=
  match c.pkg with
  | none => .error ("FileNotFoundError: " ++ c.name ++ "/package.json")
  | some updated =>
    match c.pkgBak with
    | none => .error ("FileNotFoundError: " ++ c.name ++ "/package.json.bak")
    | some original =>
      let merged := mergeRestore updated original
      match c.lockBak with
      | none => .error ("FileNotFoundError: " ++ c.name ++ "/package-lock.json.bak")
      | some _ =>
        .ok { c with pkg := some merged, pkgBak := none, lockBak := none }

/-! ### `utils.load_cli_config`

The `scope.json` document is modelled as a JSON value; the python
operations `key in value` and `value[key]`, which depend on the runtime
type of `value`, are modelled with their raising behavior. -/

/-- A JSON value as produced by `json.load`. -/
inductive Json where
  | null : Json
  | bool (b : Bool) : Json
  | num (n : Int) : Json
  | str (s : String) : Json
  | arr (elems : List Json) : Json
  | obj (fields : List (String × Json)) : Json

/-- Substring test: does `pat` occur contiguously in the list? -/
def hasSub (pat : List Char) : List Char → Bool
  | [] => startsWithChars pat []
  | c :: rest => startsWithChars pat (c :: rest) || hasSub pat rest

/-- Python `key in value` for a string `key`: dict key test on objects,
substring test on strings, element test on lists (a string key equals
only string elements), `TypeError` on every other type. -/
def pythonIn (key : String) : Json → Except String Bool
  | .obj fields => .ok (fields.any fun p => p.1 = key)
  | .str s => .ok (hasSub key.data s.data)
  | .arr elems =>
    .ok (elems.any fun j =>
      match j with
      | .str s => s = key
      | _ => false)
  | _ => .error "TypeError: argument of type is not iterable"

/-- Python `value[key]` for a string `key`: dict lookup on objects
(`KeyError` when absent), `TypeError` on every other type. -/
def pythonIndex (key : String) : Json → Except String Json
  | .obj fields =>
    match getVal key fields with
    | some v => .ok v
    | none => .error ("KeyError: " ++ key)
  | _ => .error "TypeError: indices must be integers"

/-- The record `load_cli_config` returns: `publish_mode` is kept only
when it equals `"all"` or `"independent"`; `publish_tag_name` is copied
verbatim. -/
structure CliConfigRec where
  publish_mode : Option String
  publish_tag_name : Option Json

/-- Embedding of `load_cli_config` (utils.py, lines 58-84) on the parsed
content of `scope.json`: default to `{publish_mode: None, publish_tag_name:
None}`, keep `publish_mode` only when the stored value is exactly `"all"`
or `"independent"`, copy `publish_tag_name` verbatim. -/
def loadCliConfig (doc : Json) : Except String CliConfigRec :=
  match pythonIn "repomaintain" doc with
  | .error e => .error e
  | .ok hasSection =>
    if hasSection then
      match pythonIndex "repomaintain" doc with
      | .error e => .error e
      | .ok config =>
        match pythonIn "publish_mode" config with
        | .error e => .error e
        | .ok hasMode =>
          match (if hasMode then (pythonIndex "publish_mode" config).map some
                 else .ok none) with
          | .error e => .error e
          | .ok pmv =>
            let pm :=
              match pmv with
              | some (.str s) => if s = "all" ∨ s = "independent" then some s else none
              | _ => none
            match pythonIn "publish_tag_name" config with
            | .error e => .error e
            | .ok hasTag =>
              match (if hasTag then (pythonIndex "publish_tag_name" config).map some
                     else .ok none) with
              | .error e => .error e
              | .ok tnv => .ok ⟨pm, tnv⟩
    else .ok ⟨none, none⟩

/-! ### `cmd_publish.run` and `cli.cmd_wrapper` as an effect-trace model

External collaborators (git, the interactive prompt, npm subprocesses,
registries) are modelled as oracle fields of `PubEnv`; the observable
behavior is a trace of events plus the final manifest contents. -/

/-- Observable events of one publish invocation. -/
inductive PubEv where
  | proc (cmd : String) : PubEv
  | writeManifest (component : String) : PubEv
  | commitEv : PubEv
  | tagEv (name : String) : PubEv
  | pushEv : PubEv
  | removeBakEv (component : String) : PubEv
  | unlinkEv (component : String) : PubEv
deriving DecidableEq, Repr

/-- Environment of one `publish` invocation: CLI flags, repository state,
and oracles for every external collaborator consulted by
`cmd_publish.run`.  `selection = none` models a `PrintMessageError`
raised inside `ask_user_for_components_and_version` (user abort or
validation failure); oracle functions returning `false` model the
corresponding subprocess raising `RuntimeError` (or a registry check
failing). -/
structure PubEnv where
  dryRun : Bool
  noGit : Bool
  alwaysAsk : Bool
  skipExisting : Bool
  repoDirty : Bool
  manifests : List (String × Manifest)
  selection : Option (List (String × String))
  registryGithub : Bool
  registryNpm : Bool
  npmrcExists : Bool
  npmLoggedIn : Bool
  prePublishGlobalOk : Bool
  postPublishGlobalOk : Bool
  prePublishOk : String → Bool
  postPublishOk : String → Bool
  pkgExistsGithub : String → Bool
  pkgExistsNpm : String → Bool
  publishOkGithub : String → Bool
  publishOkNpm : String → Bool
  npmInstallOk : String → Bool
  forcedProceed : Bool
  publishMode : Option String
  tagNameCfg : Option String
  tagNameAns : String
  pushProceed : Bool

/-- Result of `cmd_publish.run`: the event trace, the manifest files on
disk at the end, whether the function returned normally (`ok`), and
whether the error-cleanup handler had been registered in `app_on_error`
before the run ended. -/
structure PubOut where
  trace : List PubEv
  files : List (String × Manifest)
  ok : Bool
  registered : Bool
deriving Repr

/-- The stages of `run` before the cleanup handler is registered
(cmd_publish.py, lines 40-56): dirty-index check, component/version
selection, registry selection with authentication checks.  An error here
ends the run with `registered = false`. -/
def pubStage1 (env : PubEnv) : Except PubOut (List (String × String)) :=
  let fail : Except PubOut (List (String × String)) :=
    .error { trace := [], files := env.manifests, ok := false, registered := false }
  if !env.noGit && env.repoDirty then fail
  else
    match env.selection with
    | none => fail
    | some pubs =>
      if pubs.isEmpty then fail
      else if env.registryGithub && !env.npmrcExists then fail
      else if env.registryNpm && !env.npmLoggedIn then fail
      else if !env.registryGithub && !env.registryNpm then fail
      else .ok pubs

/-- The publish steps of `run` for one selected component (cmd_publish.py,
lines 69-132): pre-publish hook, GitHub registry (existence check, then
publish, skip, or fatal already-exists error), NPM registry likewise,
post-publish hook.  The `Except` error carries the partial trace. -/
def perComp (env : PubEnv) (n : String) : Except (List PubEv) (List PubEv) :=
  let t0 := [PubEv.proc ("pre-publish " ++ n)]
  if !env.prePublishOk n then .error t0
  else
    let github : Except (List PubEv) (List PubEv) :=
      if env.registryGithub then
        if !env.pkgExistsGithub n then
          if env.publishOkGithub n then .ok [PubEv.proc ("npm publish github " ++ n)]
          else .error [PubEv.proc ("npm publish github " ++ n)]
        else if env.skipExisting then .ok []
        else .error []
      else .ok []
    match github with
    | .error tg => .error (t0 ++ tg)
    | .ok tg =>
      let npm : Except (List PubEv) (List PubEv) :=
        if env.registryNpm then
          if !env.pkgExistsNpm n then
            if env.publishOkNpm n then .ok [PubEv.proc ("npm publish npm " ++ n)]
            else .error [PubEv.proc ("npm publish npm " ++ n)]
          else if env.skipExisting then .ok []
          else .error []
        else .ok []
      match npm with
      | .error tn => .error (t0 ++ tg ++ tn)
      | .ok tn =>
        let t1 := t0 ++ tg ++ tn ++ [PubEv.proc ("post-publish " ++ n)]
        if env.postPublishOk n then .ok t1 else .error t1

/-- The per-component publish loop over the selected components. -/
def perComponentLoop (env : PubEnv) : List (String × String) → Except (List PubEv) (List PubEv)
  | [] => .ok []
  | (n, _) :: rest =>
    match perComp env n with
    | .error t => .error t
    | .ok t =>
      match perComponentLoop env rest with
      | .error t2 => .error (t ++ t2)
      | .ok t2 => .ok (t ++ t2)

/-- The `npm install --package-json-only` loop over all components
(cmd_publish.py, lines 136-138), run only outside dry-run mode. -/
def installLoop (env : PubEnv) : List String → Except (List PubEv) (List PubEv)
  | [] => .ok []
  | n :: rest =>
    let t := [PubEv.proc ("npm install " ++ n)]
    if !env.npmInstallOk n then .error t
    else
      match installLoop env rest with
      | .error t2 => .error (t ++ t2)
      | .ok t2 => .ok (t ++ t2)

/-- Tag names created by `ask_user_and_prepare_commit_and_tags`
(cmd_publish.py, lines 401-464): one shared `<name>@<version>` tag in
`all` mode (tag name from the stored config unless `--always-ask` or the
stored name is empty, in which case the prompted answer is used), one
`<component>@<version>` tag per published component otherwise. -/
def tagNames (env : PubEnv) (pubs : List (String × String)) : List String :=
  if env.publishMode = some "all" then
    let version := (pubs.head?.map Prod.snd).getD ""
    let nm :=
      match env.tagNameCfg with
      | some t => if !env.alwaysAsk && t.length > 0 then t else env.tagNameAns
      | none => env.tagNameAns
    [nm ++ "@" ++ version]
  else
    pubs.map fun p => p.1 ++ "@" ++ p.2

/-- The events of `cleanup` (cmd_publish.py, lines 612-621): for every
component remove `package.json.bak` and, except for the synthetic root,
the linked `.npmrc` copy.  Note that this only deletes files; it does not
restore any content. -/
def cleanupEvs (names : List String) : List PubEv :=
  names.foldr
    (fun n acc =>
      PubEv.removeBakEv n :: (if n = "root" then acc else PubEv.unlinkEv n :: acc))
    []

/-- The stages of `run` after the cleanup handler has been registered
(cmd_publish.py, lines 59-162): global pre-publish hook, version
reconciliation (`update_version`, including the forced-update
confirmation), the per-component publish loop, lock-file update (skipped
in dry-run mode), commit and tag creation (skipped only with `--no-git`),
global post-publish hook, push (skipped in dry-run mode), and the final
cleanup.  Returns trace, final manifest files and the `ok` flag. -/
def pubRestCore (env : PubEnv) (pubs : List (String × String)) :
    List PubEv × List (String × Manifest) × Bool :=
  let names := env.manifests.map Prod.fst
  let t0 := [PubEv.proc "pre-publish-global"]
  if !env.prePublishGlobalOk then (t0, env.manifests, false)
  else
    let files1 := env.manifests.map fun p => (p.1, (updateVersionComponent pubs p.1 p.2).1)
    let forcedAll :=
      (env.manifests.map fun p => (updateVersionComponent pubs p.1 p.2).2).foldr (· ++ ·) []
    let t1 := t0 ++ env.manifests.map (fun p => PubEv.writeManifest p.1)
    if !forcedAll.isEmpty && !env.forcedProceed then (t1, files1, false)
    else
      match perComponentLoop env pubs with
      | .error tr => (t1 ++ tr, files1, false)
      | .ok tr =>
        let t2 := t1 ++ tr
        match (if env.dryRun then Except.ok [] else installLoop env names) with
        | .error tr2 => (t2 ++ tr2, files1, false)
        | .ok tr2 =>
          let t3 := t2 ++ tr2
          let tagged :=
            if !env.noGit then
              let tags := tagNames env pubs
              (t3 ++ [PubEv.commitEv] ++ tags.map PubEv.tagEv, true)
            else (t3, false)
          let t4 := tagged.1 ++ [PubEv.proc "post-publish-global"]
          if !env.postPublishGlobalOk then (t4, files1, false)
          else
            let t5 :=
              if tagged.2 && !env.dryRun && env.pushProceed then t4 ++ [PubEv.pushEv]
              else t4
            (t5 ++ cleanupEvs names, files1, true)

/-- `run` after handler registration, wrapped into a `PubOut` with
`registered = true`. -/
def pubRest (env : PubEnv) (pubs : List (String × String)) : PubOut :=
  let c := pubRestCore env pubs
  { trace := c.1, files := c.2.1, ok := c.2.2, registered := true }

/-- Embedding of `cmd_publish.run` (cmd_publish.py, lines 34-162). -/
def publishRun (env : PubEnv) : PubOut :=
  match pubStage1 env with
  | .error o => o
  | .ok pubs => pubRest env pubs

/-- Result of the CLI layer: process exit code, final trace, final files. -/
structure WrapOut where
  exitCode : Nat
  trace : List PubEv
  files : List (String × Manifest)
deriving Repr

/-- Embedding of `cli.cmd_wrapper` around `cmd_publish.run` (cli.py,
lines 14-38): on any failure the registered `app_on_error` handlers run
(here: `cleanup`, when it was registered) and the process exits with
code 1; on success the exit code is 0. -/
def cmdWrapperPublish (env : PubEnv) : WrapOut :=
  let o := publishRun env
  if o.ok then ⟨0, o.trace, o.files⟩
  else
    ⟨1,
      o.trace ++ (if o.registered then cleanupEvs (env.manifests.map Prod.fst) else []),
      o.files⟩

/-! ### Concrete scenarios used by the closed theorems below -/

/-- A dry-run publish invocation with Git enabled (`--dry-run`, without
`--no-git`): two public components `A`, `B` (`B` depends on `A` via
`^1.0.0`) plus the synthetic root, selection of both at `1.1.0` in `all`
mode, the NPM registry selected, and every external call succeeding. -/
def envDry : PubEnv where
  dryRun := true
  noGit := false
  alwaysAsk := false
  skipExisting := false
  repoDirty := false
  manifests :=
    [("A", ⟨"1.0.0", [], []⟩),
     ("B", ⟨"1.0.0", [("A", "^1.0.0")], []⟩),
     ("root", ⟨"", [], []⟩)]
  selection := some [("A", "1.1.0"), ("B", "1.1.0")]
  registryGithub := false
  registryNpm := true
  npmrcExists := true
  npmLoggedIn := true
  prePublishGlobalOk := true
  postPublishGlobalOk := true
  prePublishOk := fun _ => true
  postPublishOk := fun _ => true
  pkgExistsGithub := fun _ => false
  pkgExistsNpm := fun _ => false
  publishOkGithub := fun _ => true
  publishOkNpm := fun _ => true
  npmInstallOk := fun _ => true
  forcedProceed := true
  publishMode := some "all"
  tagNameCfg := some "release"
  tagNameAns := "x"
  pushProceed := true

/-- A publish invocation (not dry-run) that fails after the versioning
step: component `A` is selected at `2.0.0`, the manifests are rewritten
by `update_version`, and then the per-component `pre-publish` hook
raises. -/
def envFail : PubEnv where
  dryRun := false
  noGit := false
  alwaysAsk := false
  skipExisting := false
  repoDirty := false
  manifests :=
    [("A", ⟨"1.0.0", [], []⟩),
     ("B", ⟨"1.0.0", [("A", "^1.0.0")], []⟩),
     ("root", ⟨"", [], []⟩)]
  selection := some [("A", "2.0.0")]
  registryGithub := false
  registryNpm := true
  npmrcExists := true
  npmLoggedIn := true
  prePublishGlobalOk := true
  postPublishGlobalOk := true
  prePublishOk := fun _ => false
  postPublishOk := fun _ => true
  pkgExistsGithub := fun _ => false
  pkgExistsNpm := fun _ => false
  publishOkGithub := fun _ => true
  publishOkNpm := fun _ => true
  npmInstallOk := fun _ => true
  forcedProceed := true
  publishMode := some "all"
  tagNameCfg := some "release"
  tagNameAns := "x"
  pushProceed := true

/-! ## Theorems

### Order lemmas for `verCompare` -/

theorem verCompare_eq_lt_iff (x y : Ver) : verCompare x y = .lt ↔ verLtP x y := by
  unfold verCompare verLtP
  split_ifs <;> simp_all <;> omega

theorem not_verLtP_iff (x y : Ver) : ¬ verLtP x y ↔ verLeP y x := by
  cases x with
  | mk a b c =>
    cases y with
    | mk d e f =>
      simp only [verLtP, verLeP, Ver.mk.injEq]
      constructor
      · intro h
        by_cases hm : d < a
        · exact Or.inl (Or.inl hm)
        · by_cases hm2 : a = d <;> omega
      · intro h h2
        rcases h with h | h <;> omega

/-! ### Association-list lemmas -/

theorem getVal_setVal_self {α : Type} (n : String) (v : α) (l : List (String × α)) :
    getVal n (setVal n v l) = (getVal n l).map (fun _ => v) := by
  induction l with
  | nil => rfl
  | cons p rest ih =>
    obtain ⟨a, b⟩ := p
    by_cases h : a = n
    · subst h
      simp [setVal, getVal]
    · simp [setVal, getVal, h]
      exact ih

theorem getVal_setVal_ne {α : Type} (k n : String) (v : α) (l : List (String × α))
    (h : k ≠ n) : getVal k (setVal n v l) = getVal k l := by
  induction l with
  | nil => rfl
  | cons p rest ih =>
    obtain ⟨a, b⟩ := p
    by_cases hp : a = n
    · subst hp
      have hak : a ≠ k := fun hh => h (hh.symm ▸ rfl)
      simp [setVal, getVal, hak]
      exact ih
    · by_cases hk : a = k
      · subst hk
        simp [setVal, getVal, hp]
      · simp [setVal, getVal, hp, hk]
        exact ih

theorem getVal_eraseKey_self {α : Type} (n : String) (l : List (String × α)) :
    getVal n (eraseKey n l) = none := by
  induction l with
  | nil => rfl
  | cons p rest ih =>
    obtain ⟨a, b⟩ := p
    by_cases h : a = n
    · subst h
      simpa [eraseKey, getVal] using ih
    · simpa [eraseKey, getVal, h] using ih

theorem getVal_eraseKey_ne {α : Type} (k n : String) (l : List (String × α))
    (h : k ≠ n) : getVal k (eraseKey n l) = getVal k l := by
  induction l with
  | nil => rfl
  | cons p rest ih =>
    obtain ⟨a, b⟩ := p
    by_cases hp : a = n
    · subst hp
      have hak : a ≠ k := fun hh => h (hh.symm ▸ rfl)
      simpa [eraseKey, getVal, hak] using ih
    · by_cases hk : a = k
      · subst hk
        simp [eraseKey, getVal, hp]
      · simpa [eraseKey, getVal, hp, hk] using ih

/-! ### Lemmas about `applyUpdates` (`cmd_publish.update_version`) -/

theorem applyUpdates_untouched (L : List (String × String)) (m : Manifest) (n : String)
    (h : n ∉ L.map Prod.fst) :
    getVal n (applyUpdates L m).1.deps = getVal n m.deps ∧
    getVal n (applyUpdates L m).1.devDeps = getVal n m.devDeps ∧
    ∀ s, (n, s) ∉ (applyUpdates L m).2 := by
  induction L generalizing m with
  | nil => simp [applyUpdates]
  | cons p rest ih =>
    obtain ⟨k, v⟩ := p
    have hkn : k ≠ n := fun hh => h (by simp [hh])
    have hrest : n ∉ rest.map Prod.fst := fun hh => h (by simp [hh])
    simp only [applyUpdates]
    cases hdep : getVal k m.deps with
    | some old =>
      have ihm := ih (m := { m with deps := setVal k (semverSpecifierOf old ++ v) m.deps }) hrest
      by_cases hc : npmSpecContains old v = true
      · simp only [if_pos hc]
        exact ⟨by rw [ihm.1]; exact getVal_setVal_ne n k _ m.deps (Ne.symm hkn),
          ihm.2.1, ihm.2.2⟩
      · simp only [if_neg hc]
        refine ⟨by rw [ihm.1]; exact getVal_setVal_ne n k _ m.deps (Ne.symm hkn),
          ihm.2.1, ?_⟩
        intro s hs
        rcases List.mem_cons.mp hs with h1 | h1
        · exact hkn (congrArg Prod.fst h1).symm
        · exact ihm.2.2 s h1
    | none =>
      cases hdev : getVal k m.devDeps with
      | some old =>
        have ihm := ih
          (m := { m with devDeps := setVal k (semverSpecifierOf old ++ v) m.devDeps }) hrest
        by_cases hc : npmSpecContains old v = true
        · simp only [if_pos hc]
          exact ⟨ihm.1,
            by rw [ihm.2.1]; exact getVal_setVal_ne n k _ m.devDeps (Ne.symm hkn),
            ihm.2.2⟩
        · simp only [if_neg hc]
          refine ⟨ihm.1,
            by rw [ihm.2.1]; exact getVal_setVal_ne n k _ m.devDeps (Ne.symm hkn), ?_⟩
          intro s hs
          rcases List.mem_cons.mp hs with h1 | h1
          · exact hkn (congrArg Prod.fst h1).symm
          · exact ihm.2.2 s h1
      | none => exact ih (m := m) hrest

theorem mem_cons_pair_ne {α : Type} (_k n : String) (s : α) (p : String × α)
    (l : List (String × α)) (h : p.1 ≠ n) : ((n, s) ∈ p :: l) ↔ (n, s) ∈ l := by
  constructor
  · intro hm
    rcases List.mem_cons.mp hm with h1 | h1
    · exact absurd (congrArg Prod.fst h1).symm h
    · exact h1
  · exact fun hm => List.mem_cons_of_mem _ hm

theorem applyUpdates_key_spec (L : List (String × String)) (m : Manifest)
    (name tv old : String)
    (hnd : (L.map Prod.fst).Nodup) (hmem : (name, tv) ∈ L) :
    (getVal name m.deps = some old →
      getVal name (applyUpdates L m).1.deps = some (semverSpecifierOf old ++ tv) ∧
      (((name, old ++ " -> " ++ (semverSpecifierOf old ++ tv)) ∈ (applyUpdates L m).2) ↔
        npmSpecContains old tv = false)) ∧
    (getVal name m.deps = none → getVal name m.devDeps = some old →
      getVal name (applyUpdates L m).1.devDeps = some (semverSpecifierOf old ++ tv) ∧
      (((name, old ++ " -> " ++ (semverSpecifierOf old ++ tv)) ∈ (applyUpdates L m).2) ↔
        npmSpecContains old tv = false)) := by
  induction L generalizing m with
  | nil => exact absurd hmem (List.not_mem_nil _)
  | cons p rest ih =>
    obtain ⟨k, v⟩ := p
    rw [List.map_cons, List.nodup_cons] at hnd
    obtain ⟨hknotin, hnd'⟩ := hnd
    by_cases hkname : k = name
    · subst hkname
      have hv : v = tv := by
        rcases List.mem_cons.mp hmem with h1 | h1
        · exact ((Prod.mk.injEq _ _ _ _).mp h1.symm).2
        · exact absurd (List.mem_map_of_mem Prod.fst h1) hknotin
      subst hv
      constructor
      · intro hdep
        simp only [applyUpdates, hdep]
        have hu := applyUpdates_untouched rest
          { m with deps := setVal k (semverSpecifierOf old ++ v) m.deps } k hknotin
        have hset : getVal k (setVal k (semverSpecifierOf old ++ v) m.deps) =
            some (semverSpecifierOf old ++ v) := by
          rw [getVal_setVal_self, hdep]; rfl
        by_cases hc : npmSpecContains old v = true
        · simp only [if_pos hc]
          refine ⟨by rw [hu.1]; exact hset, ?_⟩
          exact iff_of_false (hu.2.2 _) (by simp [hc])
        · simp only [if_neg hc]
          refine ⟨by rw [hu.1]; exact hset, ?_⟩
          exact iff_of_true (List.mem_cons_self _ _) (Bool.not_eq_true _ ▸ hc)
      · intro hdep hdev
        simp only [applyUpdates, hdep, hdev]
        have hu := applyUpdates_untouched rest
          { m with devDeps := setVal k (semverSpecifierOf old ++ v) m.devDeps } k hknotin
        have hset : getVal k (setVal k (semverSpecifierOf old ++ v) m.devDeps) =
            some (semverSpecifierOf old ++ v) := by
          rw [getVal_setVal_self, hdev]; rfl
        by_cases hc : npmSpecContains old v = true
        · simp only [if_pos hc]
          refine ⟨by rw [hu.2.1]; exact hset, ?_⟩
          exact iff_of_false (hu.2.2 _) (by simp [hc])
        · simp only [if_neg hc]
          refine ⟨by rw [hu.2.1]; exact hset, ?_⟩
          exact iff_of_true (List.mem_cons_self _ _) (Bool.not_eq_true _ ▸ hc)
    · have hmem' : (name, tv) ∈ rest := by
        rcases List.mem_cons.mp hmem with h1 | h1
        · exact absurd (congrArg Prod.fst h1).symm hkname
        · exact h1
      constructor
      · intro hdep
        simp only [applyUpdates]
        cases hdk : getVal k m.deps with
        | some oldk =>
          have hdep' : getVal name
              ({ m with deps := setVal k (semverSpecifierOf oldk ++ v) m.deps }).deps =
              some old := by
            show getVal name (setVal k _ m.deps) = some old
            rw [getVal_setVal_ne name k _ m.deps (fun hh => hkname hh.symm), hdep]
          have ihs := (ih { m with deps := setVal k (semverSpecifierOf oldk ++ v) m.deps }
            hnd' hmem').1 hdep'
          by_cases hc : npmSpecContains oldk v = true
          · simp only [if_pos hc]
            exact ihs
          · simp only [if_neg hc]
            exact ⟨ihs.1, (mem_cons_pair_ne k name _ _ _ hkname).trans ihs.2⟩
        | none =>
          cases hdk2 : getVal k m.devDeps with
          | some oldk =>
            have hdep' : getVal name
                ({ m with devDeps := setVal k (semverSpecifierOf oldk ++ v) m.devDeps }).deps =
                some old := hdep
            have ihs := (ih { m with devDeps := setVal k (semverSpecifierOf oldk ++ v) m.devDeps }
              hnd' hmem').1 hdep'
            by_cases hc : npmSpecContains oldk v = true
            · simp only [if_pos hc]
              exact ihs
            · simp only [if_neg hc]
              exact ⟨ihs.1, (mem_cons_pair_ne k name _ _ _ hkname).trans ihs.2⟩
          | none => exact (ih m hnd' hmem').1 hdep
      · intro hdep hdev
        simp only [applyUpdates]
        cases hdk : getVal k m.deps with
        | some oldk =>
          have hdep' : getVal name
              ({ m with deps := setVal k (semverSpecifierOf oldk ++ v) m.deps }).deps = none := by
            show getVal name (setVal k _ m.deps) = none
            rw [getVal_setVal_ne name k _ m.deps (fun hh => hkname hh.symm), hdep]
          have ihs := (ih { m with deps := setVal k (semverSpecifierOf oldk ++ v) m.deps }
            hnd' hmem').2 hdep' hdev
          by_cases hc : npmSpecContains oldk v = true
          · simp only [if_pos hc]
            exact ihs
          · simp only [if_neg hc]
            exact ⟨ihs.1, (mem_cons_pair_ne k name _ _ _ hkname).trans ihs.2⟩
        | none =>
          cases hdk2 : getVal k m.devDeps with
          | some oldk =>
            have hdev' : getVal name
                ({ m with devDeps := setVal k (semverSpecifierOf oldk ++ v) m.devDeps }).devDeps =
                some old := by
              show getVal name (setVal k _ m.devDeps) = some old
              rw [getVal_setVal_ne name k _ m.devDeps (fun hh => hkname hh.symm), hdev]
            have ihs := (ih { m with devDeps := setVal k (semverSpecifierOf oldk ++ v) m.devDeps }
              hnd' hmem').2 hdep hdev'
            by_cases hc : npmSpecContains oldk v = true
            · simp only [if_pos hc]
              exact ihs
            · simp only [if_neg hc]
              exact ⟨ihs.1, (mem_cons_pair_ne k name _ _ _ hkname).trans ihs.2⟩
          | none => exact (ih m hnd' hmem').2 hdep hdev

/-- C1: For every component manifest and every dependency name of the
target-version map that appears among the manifest's runtime or
development dependencies (runtime checked first; development consulted
only when the name is absent from runtime), `update_version` rewrites the
declared requirement to `prefix ++ targetVersion`, where `prefix` is the
leading run of non-digit, non-space characters of the old requirement,
and a forced-update record `name ↦ "old -> new"` is produced if and only
if the target version is not contained in the old requirement's range. -/
theorem claim1_reconcile_to_target (pubMap : List (String × String)) (cname : String)
    (m : Manifest) (name tv old : String)
    (hnd : (pubMap.map Prod.fst).Nodup)
    (hmem : (name, tv) ∈ pubMap) :
    (getVal name m.deps = some old →
      getVal name (updateVersionComponent pubMap cname m).1.deps
          = some (semverSpecifierOf old ++ tv) ∧
      (((name, old ++ " -> " ++ (semverSpecifierOf old ++ tv))
          ∈ (updateVersionComponent pubMap cname m).2) ↔
        npmSpecContains old tv = false)) ∧
    (getVal name m.deps = none → getVal name m.devDeps = some old →
      getVal name (updateVersionComponent pubMap cname m).1.devDeps
          = some (semverSpecifierOf old ++ tv) ∧
      (((name, old ++ " -> " ++ (semverSpecifierOf old ++ tv))
          ∈ (updateVersionComponent pubMap cname m).2) ↔
        npmSpecContains old tv = false)) := by
  unfold updateVersionComponent
  cases h : getVal cname pubMap with
  | some nv => exact applyUpdates_key_spec pubMap { m with version := nv } name tv old hnd hmem
  | none => exact applyUpdates_key_spec pubMap m name tv old hnd hmem

/-- Witness for C1, the spec's own example: a dependency declared as
`~1.5.3` reconciled to target `2.0.0` becomes `~2.0.0` together with a
forced-update record `"~1.5.3 -> ~2.0.0"`. -/
theorem claim1_reconcile_to_target_witness :
    getVal "A" (updateVersionComponent [("A", "2.0.0")] "B"
        ⟨"1.0.0", [("A", "~1.5.3")], []⟩).1.deps = some "~2.0.0" ∧
    ("A", "~1.5.3 -> ~2.0.0") ∈ (updateVersionComponent [("A", "2.0.0")] "B"
        ⟨"1.0.0", [("A", "~1.5.3")], []⟩).2 := by
  have h := claim1_reconcile_to_target [("A", "2.0.0")] "B"
    ⟨"1.0.0", [("A", "~1.5.3")], []⟩ "A" "2.0.0" "~1.5.3" (by decide) (by decide)
  have h1 := h.1 rfl
  refine ⟨?_, ?_⟩
  · rw [h1.1]
    decide
  · have hm := h1.2.mpr (by decide)
    have heq : ("A", "~1.5.3" ++ " -> " ++ (semverSpecifierOf "~1.5.3" ++ "2.0.0")) =
        (("A", "~1.5.3 -> ~2.0.0") : String × String) := by decide
    exact heq ▸ hm

/-! ### Lemmas about `prepareApply` (`cmd_update.prepare_components`) -/

theorem prepareApply_untouched (L : List (String × String)) (m : Manifest) (n : String)
    (h : n ∉ L.map Prod.fst) :
    getVal n (prepareApply L m).1.deps = getVal n m.deps ∧
    getVal n (prepareApply L m).1.devDeps = getVal n m.devDeps ∧
    ∀ r v, (⟨n, r, v⟩ : StripWarning) ∉ (prepareApply L m).2 := by
  induction L generalizing m with
  | nil => simp [prepareApply]
  | cons p rest ih =>
    obtain ⟨k, v⟩ := p
    have hkn : k ≠ n := fun hh => h (by simp [hh])
    have hrest : n ∉ rest.map Prod.fst := fun hh => h (by simp [hh])
    simp only [prepareApply]
    cases hdep : getVal k m.deps with
    | some range =>
      by_cases hc : npmSpecContains range v = true
      · simp only [if_pos hc]
        have ihm := ih (m := { m with deps := eraseKey k m.deps }) hrest
        exact ⟨by rw [ihm.1]; exact getVal_eraseKey_ne n k m.deps (Ne.symm hkn),
          ihm.2.1, ihm.2.2⟩
      · simp only [if_neg hc]
        have ihm := ih (m := m) hrest
        refine ⟨ihm.1, ihm.2.1, ?_⟩
        intro r w hs
        rcases List.mem_cons.mp hs with h1 | h1
        · exact hkn (congrArg StripWarning.depName h1).symm
        · exact ihm.2.2 r w h1
    | none =>
      cases hdev : getVal k m.devDeps with
      | some range =>
        by_cases hc : npmSpecContains range v = true
        · simp only [if_pos hc]
          have ihm := ih (m := { m with devDeps := eraseKey k m.devDeps }) hrest
          exact ⟨ihm.1,
            by rw [ihm.2.1]; exact getVal_eraseKey_ne n k m.devDeps (Ne.symm hkn),
            ihm.2.2⟩
        · simp only [if_neg hc]
          have ihm := ih (m := m) hrest
          refine ⟨ihm.1, ihm.2.1, ?_⟩
          intro r w hs
          rcases List.mem_cons.mp hs with h1 | h1
          · exact hkn (congrArg StripWarning.depName h1).symm
          · exact ihm.2.2 r w h1
      | none => exact ih (m := m) hrest

theorem mem_cons_warn_ne (n r v : String) (w : StripWarning) (l : List StripWarning)
    (h : w.depName ≠ n) :
    ((⟨n, r, v⟩ : StripWarning) ∈ w :: l) ↔ (⟨n, r, v⟩ : StripWarning) ∈ l := by
  constructor
  · intro hm
    rcases List.mem_cons.mp hm with h1 | h1
    · exact absurd (congrArg StripWarning.depName h1).symm h
    · exact h1
  · exact fun hm => List.mem_cons_of_mem _ hm

theorem prepareApply_key_spec (L : List (String × String)) (m : Manifest)
    (name iv range : String)
    (hnd : (L.map Prod.fst).Nodup) (hmem : (name, iv) ∈ L) :
    (getVal name m.deps = some range →
      (npmSpecContains range iv = true →
        getVal name (prepareApply L m).1.deps = none ∧
        ∀ r v, (⟨name, r, v⟩ : StripWarning) ∉ (prepareApply L m).2) ∧
      (npmSpecContains range iv = false →
        getVal name (prepareApply L m).1.deps = some range ∧
        (⟨name, range, iv⟩ : StripWarning) ∈ (prepareApply L m).2)) ∧
    (getVal name m.deps = none → getVal name m.devDeps = some range →
      (npmSpecContains range iv = true →
        getVal name (prepareApply L m).1.devDeps = none ∧
        ∀ r v, (⟨name, r, v⟩ : StripWarning) ∉ (prepareApply L m).2) ∧
      (npmSpecContains range iv = false →
        getVal name (prepareApply L m).1.devDeps = some range ∧
        (⟨name, range, iv⟩ : StripWarning) ∈ (prepareApply L m).2)) := by
  induction L generalizing m with
  | nil => exact absurd hmem (List.not_mem_nil _)
  | cons p rest ih =>
    obtain ⟨k, v⟩ := p
    rw [List.map_cons, List.nodup_cons] at hnd
    obtain ⟨hknotin, hnd'⟩ := hnd
    by_cases hkname : k = name
    · subst hkname
      have hv : v = iv := by
        rcases List.mem_cons.mp hmem with h1 | h1
        · exact ((Prod.mk.injEq _ _ _ _).mp h1.symm).2
        · exact absurd (List.mem_map_of_mem Prod.fst h1) hknotin
      subst hv
      constructor
      · intro hdep
        simp only [prepareApply, hdep]
        constructor
        · intro hc
          simp only [if_pos hc]
          have hu := prepareApply_untouched rest { m with deps := eraseKey k m.deps } k hknotin
          exact ⟨by rw [hu.1]; exact getVal_eraseKey_self k m.deps, hu.2.2⟩
        · intro hc
          have hc' : ¬ npmSpecContains range v = true := by simp [hc]
          simp only [if_neg hc']
          have hu := prepareApply_untouched rest m k hknotin
          exact ⟨by rw [hu.1]; exact hdep, List.mem_cons_self _ _⟩
      · intro hdep hdev
        simp only [prepareApply, hdep, hdev]
        constructor
        · intro hc
          simp only [if_pos hc]
          have hu := prepareApply_untouched rest { m with devDeps := eraseKey k m.devDeps } k hknotin
          exact ⟨by rw [hu.2.1]; exact getVal_eraseKey_self k m.devDeps, hu.2.2⟩
        · intro hc
          have hc' : ¬ npmSpecContains range v = true := by simp [hc]
          simp only [if_neg hc']
          have hu := prepareApply_untouched rest m k hknotin
          exact ⟨by rw [hu.2.1]; exact hdev, List.mem_cons_self _ _⟩
    · have hmem' : (name, iv) ∈ rest := by
        rcases List.mem_cons.mp hmem with h1 | h1
        · exact absurd (congrArg Prod.fst h1).symm hkname
        · exact h1
      have hne : name ≠ k := fun hh => hkname hh.symm
      constructor
      · intro hdep
        simp only [prepareApply]
        cases hdk : getVal k m.deps with
        | some rangek =>
          by_cases hc : npmSpecContains rangek v = true
          · simp only [if_pos hc]
            have hdep' : getVal name ({ m with deps := eraseKey k m.deps }).deps = some range := by
              show getVal name (eraseKey k m.deps) = some range
              rw [getVal_eraseKey_ne name k m.deps hne, hdep]
            exact (ih { m with deps := eraseKey k m.deps } hnd' hmem').1 hdep'
          · simp only [if_neg hc]
            have ihs := (ih m hnd' hmem').1 hdep
            refine ⟨fun hc2 => ⟨(ihs.1 hc2).1, ?_⟩, fun hc2 =>
              ⟨(ihs.2 hc2).1, (mem_cons_warn_ne name range iv _ _ hkname).mpr (ihs.2 hc2).2⟩⟩
            intro r w
            exact fun hm => (ihs.1 hc2).2 r w ((mem_cons_warn_ne name r w _ _ hkname).mp hm)
        | none =>
          cases hdk2 : getVal k m.devDeps with
          | some rangek =>
            by_cases hc : npmSpecContains rangek v = true
            · simp only [if_pos hc]
              exact (ih { m with devDeps := eraseKey k m.devDeps } hnd' hmem').1 hdep
            · simp only [if_neg hc]
              have ihs := (ih m hnd' hmem').1 hdep
              refine ⟨fun hc2 => ⟨(ihs.1 hc2).1, ?_⟩, fun hc2 =>
                ⟨(ihs.2 hc2).1, (mem_cons_warn_ne name range iv _ _ hkname).mpr (ihs.2 hc2).2⟩⟩
              intro r w
              exact fun hm => (ihs.1 hc2).2 r w ((mem_cons_warn_ne name r w _ _ hkname).mp hm)
          | none => exact (ih m hnd' hmem').1 hdep
      · intro hdep hdev
        simp only [prepareApply]
        cases hdk : getVal k m.deps with
        | some rangek =>
          by_cases hc : npmSpecContains rangek v = true
          · simp only [if_pos hc]
            have hdep' : getVal name ({ m with deps := eraseKey k m.deps }).deps = none := by
              show getVal name (eraseKey k m.deps) = none
              rw [getVal_eraseKey_ne name k m.deps hne, hdep]
            exact (ih { m with deps := eraseKey k m.deps } hnd' hmem').2 hdep' hdev
          · simp only [if_neg hc]
            have ihs := (ih m hnd' hmem').2 hdep hdev
            refine ⟨fun hc2 => ⟨(ihs.1 hc2).1, ?_⟩, fun hc2 =>
              ⟨(ihs.2 hc2).1, (mem_cons_warn_ne name range iv _ _ hkname).mpr (ihs.2 hc2).2⟩⟩
            intro r w
            exact fun hm => (ihs.1 hc2).2 r w ((mem_cons_warn_ne name r w _ _ hkname).mp hm)
        | none =>
          cases hdk2 : getVal k m.devDeps with
          | some rangek =>
            by_cases hc : npmSpecContains rangek v = true
            · simp only [if_pos hc]
              have hdev' : getVal name ({ m with devDeps := eraseKey k m.devDeps }).devDeps =
                  some range := by
                show getVal name (eraseKey k m.devDeps) = some range
                rw [getVal_eraseKey_ne name k m.devDeps hne, hdev]
              exact (ih { m with devDeps := eraseKey k m.devDeps } hnd' hmem').2 hdep hdev'
            · simp only [if_neg hc]
              have ihs := (ih m hnd' hmem').2 hdep hdev
              refine ⟨fun hc2 => ⟨(ihs.1 hc2).1, ?_⟩, fun hc2 =>
                ⟨(ihs.2 hc2).1, (mem_cons_warn_ne name range iv _ _ hkname).mpr (ihs.2 hc2).2⟩⟩
              intro r w
              exact fun hm => (ihs.1 hc2).2 r w ((mem_cons_warn_ne name r w _ _ hkname).mp hm)
          | none => exact (ih m hnd' hmem').2 hdep hdev

theorem getVal_eraseKey_of_none {α : Type} (k n : String) (l : List (String × α))
    (h : getVal k l = none) : getVal k (eraseKey n l) = none := by
  by_cases hh : k = n
  · subst hh
    exact getVal_eraseKey_self k l
  · rw [getVal_eraseKey_ne k n l hh]
    exact h

theorem prepareApply_idem (L : List (String × String)) (m : Manifest)
    (hnd : (L.map Prod.fst).Nodup)
    (hdisj : ∀ k r, getVal k m.deps = some r → getVal k m.devDeps = none) :
    prepareApply L (prepareApply L m).1 = prepareApply L m := by
  induction L generalizing m with
  | nil => rfl
  | cons p rest ih =>
    obtain ⟨k, v⟩ := p
    rw [List.map_cons, List.nodup_cons] at hnd
    obtain ⟨hknotin, hnd'⟩ := hnd
    cases hdep : getVal k m.deps with
    | some range =>
      by_cases hc : npmSpecContains range v = true
      · have hR : prepareApply ((k, v) :: rest) m =
            prepareApply rest { m with deps := eraseKey k m.deps } := by
          simp only [prepareApply, hdep, if_pos hc]
        rw [hR]
        have hu := prepareApply_untouched rest { m with deps := eraseKey k m.deps } k hknotin
        have h1 : getVal k
            (prepareApply rest { m with deps := eraseKey k m.deps }).1.deps = none := by
          rw [hu.1]
          exact getVal_eraseKey_self k m.deps
        have h2 : getVal k
            (prepareApply rest { m with deps := eraseKey k m.deps }).1.devDeps = none := by
          rw [hu.2.1]
          exact hdisj k range hdep
        simp only [prepareApply, h1, h2]
        refine ih { m with deps := eraseKey k m.deps } hnd' ?_
        intro k2 r hk2
        have hk2' : getVal k2 (eraseKey k m.deps) = some r := hk2
        show getVal k2 m.devDeps = none
        by_cases hkk : k2 = k
        · subst hkk
          rw [getVal_eraseKey_self] at hk2'
          exact absurd hk2' (by simp)
        · rw [getVal_eraseKey_ne k2 k m.deps hkk] at hk2'
          exact hdisj k2 r hk2'
      · have hR : prepareApply ((k, v) :: rest) m =
            ((prepareApply rest m).1, ⟨k, range, v⟩ :: (prepareApply rest m).2) := by
          simp only [prepareApply, hdep, if_neg hc]
        rw [hR]
        have hu := prepareApply_untouched rest m k hknotin
        have h1 : getVal k (prepareApply rest m).1.deps = some range := by
          rw [hu.1]
          exact hdep
        simp only [prepareApply, h1, if_neg hc]
        rw [ih m hnd' hdisj]
    | none =>
      cases hdev : getVal k m.devDeps with
      | some range =>
        by_cases hc : npmSpecContains range v = true
        · have hR : prepareApply ((k, v) :: rest) m =
              prepareApply rest { m with devDeps := eraseKey k m.devDeps } := by
            simp only [prepareApply, hdep, hdev, if_pos hc]
          rw [hR]
          have hu := prepareApply_untouched rest
            { m with devDeps := eraseKey k m.devDeps } k hknotin
          have h1 : getVal k
              (prepareApply rest { m with devDeps := eraseKey k m.devDeps }).1.deps = none := by
            rw [hu.1]
            exact hdep
          have h2 : getVal k
              (prepareApply rest { m with devDeps := eraseKey k m.devDeps }).1.devDeps =
              none := by
            rw [hu.2.1]
            exact getVal_eraseKey_self k m.devDeps
          simp only [prepareApply, h1, h2]
          refine ih { m with devDeps := eraseKey k m.devDeps } hnd' ?_
          intro k2 r hk2
          exact getVal_eraseKey_of_none k2 k m.devDeps (hdisj k2 r hk2)
        · have hR : prepareApply ((k, v) :: rest) m =
              ((prepareApply rest m).1, ⟨k, range, v⟩ :: (prepareApply rest m).2) := by
            simp only [prepareApply, hdep, hdev, if_neg hc]
          rw [hR]
          have hu := prepareApply_untouched rest m k hknotin
          have h1 : getVal k (prepareApply rest m).1.deps = none := by
            rw [hu.1]
            exact hdep
          have h2 : getVal k (prepareApply rest m).1.devDeps = some range := by
            rw [hu.2.1]
            exact hdev
          simp only [prepareApply, h1, h2, if_neg hc]
          rw [ih m hnd' hdisj]
      | none =>
        have hR : prepareApply ((k, v) :: rest) m = prepareApply rest m := by
          simp only [prepareApply, hdep, hdev]
        rw [hR]
        have hu := prepareApply_untouched rest m k hknotin
        have h1 : getVal k (prepareApply rest m).1.deps = none := by
          rw [hu.1]
          exact hdep
        have h2 : getVal k (prepareApply rest m).1.devDeps = none := by
          rw [hu.2.1]
          exact hdev
        simp only [prepareApply, h1, h2]
        exact ih m hnd' hdisj

/-- C3 (amended): `prepare_components` examines the runtime map first and
the development map only when the name is absent from runtime; an
examined entry is removed exactly when its declared range covers the
internal component's current version, while a non-covering entry is kept
and a warning is emitted for it.  When no internal name occupies both
maps at once, a second strip leaves the manifest unchanged — but it
re-emits exactly the warnings of the first run rather than suppressing
them. -/
theorem claim3_strip_internal (cmap : List (String × String)) (m : Manifest)
    (name iv range : String)
    (hnd : (cmap.map Prod.fst).Nodup)
    (hmem : (name, iv) ∈ cmap)
    (hdisj : ∀ k r, getVal k m.deps = some r → getVal k m.devDeps = none) :
    ((getVal name m.deps = some range →
      (npmSpecContains range iv = true →
        getVal name (prepareApply cmap m).1.deps = none ∧
        ∀ r v, (⟨name, r, v⟩ : StripWarning) ∉ (prepareApply cmap m).2) ∧
      (npmSpecContains range iv = false →
        getVal name (prepareApply cmap m).1.deps = some range ∧
        (⟨name, range, iv⟩ : StripWarning) ∈ (prepareApply cmap m).2)) ∧
    (getVal name m.deps = none → getVal name m.devDeps = some range →
      (npmSpecContains range iv = true →
        getVal name (prepareApply cmap m).1.devDeps = none ∧
        ∀ r v, (⟨name, r, v⟩ : StripWarning) ∉ (prepareApply cmap m).2) ∧
      (npmSpecContains range iv = false →
        getVal name (prepareApply cmap m).1.devDeps = some range ∧
        (⟨name, range, iv⟩ : StripWarning) ∈ (prepareApply cmap m).2))) ∧
    prepareApply cmap (prepareApply cmap m).1 = prepareApply cmap m :=
  ⟨prepareApply_key_spec cmap m name iv range hnd hmem,
    prepareApply_idem cmap m hnd hdisj⟩

/-- Witness for C3: component `A` at local version `2.0.0` declared via
`~1.0.0` (non-covering): the entry is kept, a warning is emitted, and the
second strip reproduces the same manifest and the same warning. -/
theorem claim3_strip_internal_witness :
    getVal "A" (prepareApply [("A", "2.0.0")]
        ⟨"1.0.0", [("A", "~1.0.0")], []⟩).1.deps = some "~1.0.0" ∧
    (⟨"A", "~1.0.0", "2.0.0"⟩ : StripWarning) ∈
      (prepareApply [("A", "2.0.0")] ⟨"1.0.0", [("A", "~1.0.0")], []⟩).2 ∧
    prepareApply [("A", "2.0.0")]
        (prepareApply [("A", "2.0.0")] ⟨"1.0.0", [("A", "~1.0.0")], []⟩).1 =
      prepareApply [("A", "2.0.0")] ⟨"1.0.0", [("A", "~1.0.0")], []⟩ := by
  have h := claim3_strip_internal [("A", "2.0.0")] ⟨"1.0.0", [("A", "~1.0.0")], []⟩
    "A" "2.0.0" "~1.0.0" (by decide) (by decide) (fun k r _ => rfl)
  exact ⟨((h.1.1 rfl).2 (by decide)).1, ((h.1.1 rfl).2 (by decide)).2, h.2⟩

/-- Counterexample for C3 as stated: when a name occupies both dependency
maps, the first strip removes only the runtime entry (the development
entry is shadowed), and a second strip removes the development entry —
so the second run does remove a further entry, refuting idempotence as
claimed. -/
theorem claim3_counterexample :
    (prepareApply [("A", "1.2.0")]
        ⟨"1.0.0", [("A", "^1.0.0")], [("A", "^1.0.0")]⟩).1.devDeps = [("A", "^1.0.0")] ∧
    (prepareApply [("A", "1.2.0")]
        (prepareApply [("A", "1.2.0")]
          ⟨"1.0.0", [("A", "^1.0.0")], [("A", "^1.0.0")]⟩).1).1.devDeps = [] := by
  exact ⟨rfl, rfl⟩

/-! ### String-processing lemmas for the requirement evaluator -/

theorem dropWhile_eq_self_of {α : Type} (p : α → Bool) (l : List α)
    (h : ∀ c ∈ l, p c = false) : l.dropWhile p = l := by
  cases l with
  | nil => rfl
  | cons c rest =>
    rw [List.dropWhile_cons, h c (List.mem_cons_self c rest)]
    simp

theorem trimCore_eq_self (l : List Char) (h : ∀ c ∈ l, c.isWhitespace = false) :
    trimCore l = l := by
  unfold trimCore
  rw [dropWhile_eq_self_of _ _ h,
    dropWhile_eq_self_of _ _ (fun c hc => h c (List.mem_reverse.mp hc)),
    List.reverse_reverse]

theorem hasBars_eq_false (l : List Char) (h : '|' ∉ l) : hasBars l = false := by
  induction l with
  | nil => rfl
  | cons c rest ih =>
    cases rest with
    | nil => rfl
    | cons d rest2 =>
      have hc : ¬ (c = '|') := fun hh => h (by simp [hh])
      have hrest : '|' ∉ d :: rest2 := fun hh => h (List.mem_cons_of_mem _ hh)
      simp only [hasBars]
      rw [ih hrest]
      simp [hc]

theorem hasBars_append_sep (a b : List Char) : hasBars (a ++ '|' :: '|' :: b) = true := by
  induction a with
  | nil => simp [hasBars]
  | cons c a' ih =>
    cases a' with
    | nil => simp [hasBars]
    | cons e a'' =>
      simp only [List.cons_append] at ih ⊢
      simp only [hasBars, ih, Bool.or_true]

theorem splitOnBars_no_bar (l : List Char) (h : '|' ∉ l) : splitOnBars l = [l] := by
  induction l with
  | nil => rfl
  | cons c rest ih =>
    cases rest with
    | nil => rfl
    | cons d rest2 =>
      have hc : ¬ (c = '|') := fun hh => h (by simp [hh])
      have hrest : '|' ∉ d :: rest2 := fun hh => h (List.mem_cons_of_mem _ hh)
      simp only [splitOnBars]
      rw [if_neg (by simp [hc]), ih hrest]

theorem splitOnBars_append_sep (a b : List Char) (ha : '|' ∉ a) :
    splitOnBars (a ++ '|' :: '|' :: b) = a :: splitOnBars b := by
  induction a with
  | nil => simp [splitOnBars]
  | cons c a' ih =>
    have hc : ¬ (c = '|') := fun hh => ha (by simp [hh])
    have ha' : '|' ∉ a' := fun hh => ha (List.mem_cons_of_mem _ hh)
    cases a' with
    | nil =>
      simp only [List.nil_append, List.cons_append, splitOnBars]
      rw [if_neg (by simp [hc])]
      simp
    | cons e a'' =>
      simp only [List.cons_append] at ih ⊢
      simp only [splitOnBars]
      rw [if_neg (by simp [hc]), ih ha']

theorem wsTokensAux_no_ws (l : List Char) (h : ∀ c ∈ l, c.isWhitespace = false) :
    ∀ cur : List Char,
      wsTokensAux cur l = if cur.isEmpty && l.isEmpty then [] else [cur.reverse ++ l] := by
  induction l with
  | nil =>
    intro cur
    cases cur <;> simp [wsTokensAux]
  | cons c rest ih =>
    intro cur
    have hc := h c (List.mem_cons_self c rest)
    have hrest : ∀ x ∈ rest, x.isWhitespace = false :=
      fun x hx => h x (List.mem_cons_of_mem _ hx)
    simp only [wsTokensAux, hc, Bool.false_eq_true, if_false,
      ih hrest (c :: cur), List.isEmpty_cons, Bool.and_false]
    simp [List.append_assoc]

theorem wsTokens_no_ws (l : List Char) (hne : l ≠ [])
    (h : ∀ c ∈ l, c.isWhitespace = false) : wsTokens l = [l] := by
  unfold wsTokens
  rw [wsTokensAux_no_ws l h []]
  simp [hne]

theorem satisfiesRequirement_eq_single (v : Ver) (l : List Char) (hne : l ≠ [])
    (h : ∀ c ∈ l, c.isWhitespace = false ∧ c ≠ '|') :
    versionSatisfiesRequirementCore v l = versionSatisfiesSingleCore v l := by
  unfold versionSatisfiesRequirementCore
  have hb : hasBars l = false := hasBars_eq_false l (fun hm => (h _ hm).2 rfl)
  have ht : trimCore l = l := trimCore_eq_self l (fun c hc => (h c hc).1)
  rw [hb, ht, wsTokens_no_ws l hne (fun c hc => (h c hc).1)]
  simp [ht]

theorem single_caret (v : Ver) (s : List Char) (hws : ∀ c ∈ s, c.isWhitespace = false) :
    versionSatisfiesSingleCore v ('^' :: s) = satisfiesCaretRangeCore v s := by
  have ht : trimCore ('^' :: s) = '^' :: s := by
    refine trimCore_eq_self _ ?_
    intro c hc
    rcases List.mem_cons.mp hc with h1 | h1
    · subst h1
      decide
    · exact hws c h1
  simp only [versionSatisfiesSingleCore, ht]
  simp [startsWithChars]

theorem single_tilde (v : Ver) (s : List Char) (hws : ∀ c ∈ s, c.isWhitespace = false) :
    versionSatisfiesSingleCore v ('~' :: s) = satisfiesTildeRangeCore v s := by
  have ht : trimCore ('~' :: s) = '~' :: s := by
    refine trimCore_eq_self _ ?_
    intro c hc
    rcases List.mem_cons.mp hc with h1 | h1
    · subst h1
      decide
    · exact hws c h1
  simp only [versionSatisfiesSingleCore, ht]
  simp [startsWithChars]

theorem trimCore_op_cons (ops : List Char) (s : List Char)
    (hops : ∀ c ∈ ops, c.isWhitespace = false)
    (hws : ∀ c ∈ s, c.isWhitespace = false) :
    trimCore (ops ++ s) = ops ++ s := by
  refine trimCore_eq_self _ ?_
  intro c hc
  rcases List.mem_append.mp hc with h1 | h1
  · exact hops c h1
  · exact hws c h1

theorem single_ge_none (v : Ver) (s : List Char)
    (hws : ∀ c ∈ s, c.isWhitespace = false) (hex : extractCore s = none) :
    versionSatisfiesSingleCore v ('>' :: '=' :: s) = false := by
  have ht : trimCore ('>' :: '=' :: s) = '>' :: '=' :: s :=
    trimCore_op_cons ['>', '='] s (by decide) hws
  simp only [versionSatisfiesSingleCore, ht]
  simp [startsWithChars, hex]

theorem single_le_none (v : Ver) (s : List Char)
    (hws : ∀ c ∈ s, c.isWhitespace = false) (hex : extractCore s = none) :
    versionSatisfiesSingleCore v ('<' :: '=' :: s) = false := by
  have ht : trimCore ('<' :: '=' :: s) = '<' :: '=' :: s :=
    trimCore_op_cons ['<', '='] s (by decide) hws
  simp only [versionSatisfiesSingleCore, ht]
  simp [startsWithChars, hex]

theorem single_eqop_none (v : Ver) (s : List Char)
    (hws : ∀ c ∈ s, c.isWhitespace = false) (hex : extractCore s = none) :
    versionSatisfiesSingleCore v ('=' :: s) = false := by
  have ht : trimCore ('=' :: s) = '=' :: s :=
    trimCore_op_cons ['='] s (by decide) hws
  simp only [versionSatisfiesSingleCore, ht]
  simp [startsWithChars, hex]

/-- C2: For every concrete version `v`: `satisfies(v, "*")` is true;
`satisfies(v, "^" ++ s)` with anchor `a` extracted from `s` holds iff
`a ≤ v < (a.major+1).0.0`; `satisfies(v, "~" ++ s)` holds iff
`a ≤ v < a.major.(a.minor+1).0` — the exclusive bounds computed by
integer arithmetic on the anchor's components.  The side condition
requires `s` to contain no whitespace and no bar, so that the full
evaluator routes the requirement to the single-term branch. -/
theorem claim2_wildcard_caret_tilde (v a : Ver) (s : List Char)
    (hex : extractCore s = some a)
    (hch : ∀ c ∈ s, c.isWhitespace = false ∧ c ≠ '|') :
    versionSatisfiesRequirementCore v ['*'] = true ∧
    (versionSatisfiesRequirementCore v ('^' :: s) = true ↔
      (verLeP a v ∧ verLtP v ⟨a.major + 1, 0, 0⟩)) ∧
    (versionSatisfiesRequirementCore v ('~' :: s) = true ↔
      (verLeP a v ∧ verLtP v ⟨a.major, a.minor + 1, 0⟩)) := by
  have hws : ∀ c ∈ s, c.isWhitespace = false := fun c hc => (hch c hc).1
  have hchC : ∀ (op : Char), op.isWhitespace = false → op ≠ '|' →
      ∀ c ∈ op :: s, c.isWhitespace = false ∧ c ≠ '|' := by
    intro op h1 h2 c hc
    rcases List.mem_cons.mp hc with hh | hh
    · exact hh ▸ ⟨h1, h2⟩
    · exact hch c hh
  refine ⟨rfl, ?_, ?_⟩
  · rw [satisfiesRequirement_eq_single v ('^' :: s) (List.cons_ne_nil _ _)
      (hchC '^' (by decide) (by decide)), single_caret v s hws]
    simp only [satisfiesCaretRangeCore, hex]
    by_cases hlt : verCompare v a = .lt
    · rw [if_pos hlt]
      refine iff_of_false (by simp) ?_
      intro hc
      exact ((not_verLtP_iff v a).mpr hc.1) ((verCompare_eq_lt_iff v a).mp hlt)
    · have hle : verLeP a v :=
        (not_verLtP_iff v a).mp (fun hp => hlt ((verCompare_eq_lt_iff v a).mpr hp))
      rw [if_neg hlt]
      simp only [decide_eq_true_eq, verCompare_eq_lt_iff]
      exact (and_iff_right hle).symm
  · rw [satisfiesRequirement_eq_single v ('~' :: s) (List.cons_ne_nil _ _)
      (hchC '~' (by decide) (by decide)), single_tilde v s hws]
    simp only [satisfiesTildeRangeCore, hex]
    by_cases hlt : verCompare v a = .lt
    · rw [if_pos hlt]
      refine iff_of_false (by simp) ?_
      intro hc
      exact ((not_verLtP_iff v a).mpr hc.1) ((verCompare_eq_lt_iff v a).mp hlt)
    · have hle : verLeP a v :=
        (not_verLtP_iff v a).mp (fun hp => hlt ((verCompare_eq_lt_iff v a).mpr hp))
      rw [if_neg hlt]
      simp only [decide_eq_true_eq, verCompare_eq_lt_iff]
      exact (and_iff_right hle).symm

/-- Witness for C2 at version `1.2.3` and anchor string `"1.2.0"`. -/
theorem claim2_wildcard_caret_tilde_witness :
    versionSatisfiesRequirementCore ⟨1, 2, 3⟩ ['*'] = true ∧
    (versionSatisfiesRequirementCore ⟨1, 2, 3⟩ ('^' :: "1.2.0".data) = true ↔
      (verLeP ⟨1, 2, 0⟩ ⟨1, 2, 3⟩ ∧ verLtP ⟨1, 2, 3⟩ ⟨2, 0, 0⟩)) ∧
    (versionSatisfiesRequirementCore ⟨1, 2, 3⟩ ('~' :: "1.2.0".data) = true ↔
      (verLeP ⟨1, 2, 0⟩ ⟨1, 2, 3⟩ ∧ verLtP ⟨1, 2, 3⟩ ⟨1, 3, 0⟩)) :=
  claim2_wildcard_caret_tilde ⟨1, 2, 3⟩ ⟨1, 2, 0⟩ "1.2.0".data (by decide) (by decide)

/-- C6 (amended): the evaluator is a total function of its inputs
(modelling "never raises"), and an anchor-parse failure resolves to
satisfied only in the caret and tilde branches; in the comparator
branches (`>=`, `<=`, `=`) an anchor-parse failure resolves to NOT
satisfied.  The fail-open policy therefore does not hold for comparator
terms. -/
theorem claim6_parse_failure_behavior (v : Ver) (s : List Char)
    (hex : extractCore s = none)
    (hch : ∀ c ∈ s, c.isWhitespace = false ∧ c ≠ '|') :
    versionSatisfiesRequirementCore v ('^' :: s) = true ∧
    versionSatisfiesRequirementCore v ('~' :: s) = true ∧
    versionSatisfiesRequirementCore v ('>' :: '=' :: s) = false ∧
    versionSatisfiesRequirementCore v ('<' :: '=' :: s) = false ∧
    versionSatisfiesRequirementCore v ('=' :: s) = false := by
  have hws : ∀ c ∈ s, c.isWhitespace = false := fun c hc => (hch c hc).1
  have hext : ∀ (ops : List Char), (∀ c ∈ ops, c.isWhitespace = false ∧ c ≠ '|') →
      ∀ c ∈ ops ++ s, c.isWhitespace = false ∧ c ≠ '|' := by
    intro ops hops c hc
    rcases List.mem_append.mp hc with h1 | h1
    · exact hops c h1
    · exact hch c h1
  refine ⟨?_, ?_, ?_, ?_, ?_⟩
  · rw [satisfiesRequirement_eq_single v ('^' :: s) (List.cons_ne_nil _ _)
      (hext ['^'] (by decide)), single_caret v s hws]
    simp [satisfiesCaretRangeCore, hex]
  · rw [satisfiesRequirement_eq_single v ('~' :: s) (List.cons_ne_nil _ _)
      (hext ['~'] (by decide)), single_tilde v s hws]
    simp [satisfiesTildeRangeCore, hex]
  · rw [satisfiesRequirement_eq_single v ('>' :: '=' :: s) (List.cons_ne_nil _ _)
      (hext ['>', '='] (by decide))]
    exact single_ge_none v s hws hex
  · rw [satisfiesRequirement_eq_single v ('<' :: '=' :: s) (List.cons_ne_nil _ _)
      (hext ['<', '='] (by decide))]
    exact single_le_none v s hws hex
  · rw [satisfiesRequirement_eq_single v ('=' :: s) (List.cons_ne_nil _ _)
      (hext ['='] (by decide))]
    exact single_eqop_none v s hws hex

/-- Witness for C6 (amended) at the unparsable anchor string `"x"`. -/
theorem claim6_parse_failure_behavior_witness :
    versionSatisfiesRequirementCore ⟨1, 0, 0⟩ ('^' :: "x".data) = true ∧
    versionSatisfiesRequirementCore ⟨1, 0, 0⟩ ('~' :: "x".data) = true ∧
    versionSatisfiesRequirementCore ⟨1, 0, 0⟩ ('>' :: '=' :: "x".data) = false ∧
    versionSatisfiesRequirementCore ⟨1, 0, 0⟩ ('<' :: '=' :: "x".data) = false ∧
    versionSatisfiesRequirementCore ⟨1, 0, 0⟩ ('=' :: "x".data) = false :=
  claim6_parse_failure_behavior ⟨1, 0, 0⟩ "x".data (by decide) (by decide)

/-- Counterexample for C6 as stated: `">=x"` has an anchor-parse failure,
yet `satisfies(1.0.0, ">=x")` evaluates to false, not to the claimed
fail-open `true`. -/
theorem claim6_counterexample :
    extractVersionFromString "x" = none ∧
    versionSatisfiesRequirement ⟨1, 0, 0⟩ ">=x" = false := by
  exact ⟨rfl, rfl⟩

/-- C7 (amended): when a requirement contains `||`, evaluation splits on
`||` first and passes each alternative in full to the single-term
evaluator — it performs NO AND-splitting inside an alternative (only
requirements without `||` are split on spaces as an AND-conjunction). -/
theorem claim7_or_split (v : Ver) (a b : List Char) (ha : '|' ∉ a) (hb : '|' ∉ b) :
    versionSatisfiesRequirementCore v (a ++ '|' :: '|' :: b) =
      (versionSatisfiesSingleCore v (trimCore a) ||
        versionSatisfiesSingleCore v (trimCore b)) := by
  unfold versionSatisfiesRequirementCore
  rw [hasBars_append_sep a b, if_pos rfl, splitOnBars_append_sep a b ha,
    splitOnBars_no_bar b hb]
  simp

/-- Witness for C7 (amended): the alternative `">=1.0.0 <2.0.0"` is
evaluated as one single term. -/
theorem claim7_or_split_witness :
    versionSatisfiesRequirementCore ⟨1, 5, 0⟩
        (">=1.0.0 <2.0.0".data ++ '|' :: '|' :: " ^3.0.0".data) =
      (versionSatisfiesSingleCore ⟨1, 5, 0⟩ (trimCore ">=1.0.0 <2.0.0".data) ||
        versionSatisfiesSingleCore ⟨1, 5, 0⟩ (trimCore " ^3.0.0".data)) :=
  claim7_or_split ⟨1, 5, 0⟩ ">=1.0.0 <2.0.0".data " ^3.0.0".data (by decide) (by decide)

/-- Counterexample for C7 as stated: at version `2.5.0` the requirement
`">=1.0.0 <2.0.0 || ^3.0.0"` is satisfied by the code (which drops the
`"<2.0.0"` conjunct inside the OR alternative) although the claimed
OR-of-AND semantics evaluates it to false. -/
theorem claim7_counterexample :
    versionSatisfiesRequirement ⟨2, 5, 0⟩ ">=1.0.0 <2.0.0 || ^3.0.0" = true ∧
    specOrThenAndEval ⟨2, 5, 0⟩ ">=1.0.0 <2.0.0 || ^3.0.0" = false := by
  exact ⟨rfl, rfl⟩

/-! ### Lemmas for anchor-version extraction (C8) -/

theorem isDigit_eq_false_of_isWhitespace (c : Char) (h : c.isWhitespace = true) :
    c.isDigit = false := by
  simp only [Char.isWhitespace, Bool.or_eq_true, decide_eq_true_eq] at h
  have h4 : c = ' ' ∨ c = '\t' ∨ c = '\r' ∨ c = '\n' := by tauto
  rcases h4 with h1 | h1 | h1 | h1 <;> subst h1 <;> decide

theorem isDigit_eq_false_of_opChar (c : Char) (h : c ∈ opChars) : c.isDigit = false := by
  simp only [opChars, List.mem_cons, List.not_mem_nil, or_false] at h
  rcases h with h | h | h | h | h <;> subst h <;> decide

theorem mem_dropWhile_of_digit (p : Char → Bool) (l : List Char) (c : Char)
    (hp : ∀ x, p x = true → x.isDigit = false)
    (hc : c ∈ l) (hd : c.isDigit = true) : c ∈ l.dropWhile p := by
  have hsplit := List.takeWhile_append_dropWhile (p := p) (l := l)
  rw [← hsplit] at hc
  rcases List.mem_append.mp hc with h1 | h1
  · have := hp c (List.mem_takeWhile_imp h1)
    rw [this] at hd
    exact absurd hd (by simp)
  · exact h1

theorem trimCore_subset (l : List Char) (c : Char) (hc : c ∈ trimCore l) : c ∈ l := by
  unfold trimCore at hc
  rw [List.mem_reverse] at hc
  have h1 := (List.dropWhile_sublist _).subset hc
  rw [List.mem_reverse] at h1
  exact (List.dropWhile_sublist _).subset h1

theorem cleanCore_subset (l : List Char) (c : Char) (hc : c ∈ cleanCore l) : c ∈ l := by
  unfold cleanCore at hc
  exact trimCore_subset l c ((List.dropWhile_sublist _).subset hc)

theorem mem_trimCore_of_digit (l : List Char) (c : Char) (hc : c ∈ l)
    (hd : c.isDigit = true) : c ∈ trimCore l := by
  unfold trimCore
  rw [List.mem_reverse]
  refine mem_dropWhile_of_digit _ _ c
    (fun x hx => isDigit_eq_false_of_isWhitespace x hx) ?_ hd
  rw [List.mem_reverse]
  exact mem_dropWhile_of_digit _ _ c
    (fun x hx => isDigit_eq_false_of_isWhitespace x hx) hc hd

theorem mem_cleanCore_of_digit (l : List Char) (c : Char) (hc : c ∈ l)
    (hd : c.isDigit = true) : c ∈ cleanCore l := by
  unfold cleanCore
  refine mem_dropWhile_of_digit _ _ c ?_ (mem_trimCore_of_digit l c hc hd) hd
  intro x hx
  exact isDigit_eq_false_of_opChar x (by simpa using hx)

theorem firstDigitRun_cleanCore_eq_none_iff (l : List Char) :
    firstDigitRun (cleanCore l) = none ↔ ∀ c ∈ l, c.isDigit = false := by
  have h1 : ((cleanCore l).dropWhile (fun c => !c.isDigit) = []) ↔
      ∀ x ∈ cleanCore l, x.isDigit = false := by
    rw [List.dropWhile_eq_nil_iff]
    constructor
    · intro h x hx
      simpa using h x hx
    · intro h x hx
      simpa using h x hx
  have h2 : (∀ x ∈ cleanCore l, x.isDigit = false) ↔ ∀ c ∈ l, c.isDigit = false := by
    constructor
    · intro hcl c hc
      by_contra hdig
      have hd : c.isDigit = true := by
        cases hcd : c.isDigit
        · exact absurd hcd hdig
        · rfl
      have := hcl c (mem_cleanCore_of_digit l c hc hd)
      rw [this] at hd
      exact absurd hd (by simp)
    · intro hl x hx
      exact hl x (cleanCore_subset l x hx)
  constructor
  · intro h
    cases hd : (cleanCore l).dropWhile (fun c => !c.isDigit) with
    | nil => exact h2.mp (h1.mp hd)
    | cons x rest =>
      exfalso
      unfold firstDigitRun at h
      rw [hd] at h
      exact Option.noConfusion h
  · intro h
    unfold firstDigitRun
    rw [h1.mpr (h2.mpr h)]

/-- C8 (amended): anchor-version extraction takes the first dot-delimited
digit run of the cleaned string, right-pads it with `"0"` to a
`major.minor.patch` triple, and fails exactly when the string contains no
digit at all OR when the strict semver parse of the padded triple rejects
it (a component with a leading zero, e.g. `"01"`).  The concrete
conjuncts exhibit prefix stripping and zero padding. -/
theorem claim8_anchor_extraction :
    (∀ s : String,
      extractVersionFromString s = none ↔
        ((∀ c ∈ s.data, c.isDigit = false) ∨
          ∃ run, firstDigitRun (cleanCore s.data) = some run ∧
            semverParse (padTo3 (splitDots run)) = none)) ∧
    extractVersionFromString ">= 1.2" = some ⟨1, 2, 0⟩ ∧
    extractVersionFromString "~1.5.3" = some ⟨1, 5, 3⟩ ∧
    extractVersionFromString "7" = some ⟨7, 0, 0⟩ ∧
    extractVersionFromString "abc" = none := by
  refine ⟨?_, rfl, rfl, rfl, rfl⟩
  intro s
  unfold extractVersionFromString extractCore
  cases hd : firstDigitRun (cleanCore s.data) with
  | none =>
    exact iff_of_true rfl (Or.inl ((firstDigitRun_cleanCore_eq_none_iff s.data).mp hd))
  | some run =>
    constructor
    · intro h
      exact Or.inr ⟨run, rfl, h⟩
    · intro h
      rcases h with h | ⟨run', heq, hp⟩
      · rw [(firstDigitRun_cleanCore_eq_none_iff s.data).mpr h] at hd
        exact Option.noConfusion hd
      · have hrr : run = run' := Option.some_inj.mp heq
        show semverParse (padTo3 (splitDots run)) = none
        rw [hrr]
        exact hp

/-- Counterexample for C8 as stated: the string `"01"` contains a digit
sequence, yet extraction fails (the strict semver parse rejects the
leading zero), refuting "fails exactly when the string contains no digit
sequence". -/
theorem claim8_counterexample :
    extractVersionFromString "01" = none ∧
    ('0' ∈ "01".data ∧ Char.isDigit '0' = true) := by
  exact ⟨rfl, by decide, rfl⟩

/-- C4: evaluation of the publish workflow at the failing input — a
dry-run invocation with Git enabled in which every step succeeds.  The
run completes, yet a Git commit and a tag ARE created (only the push is
skipped), and the manifest `version` fields on disk hold the bumped
values; `cmd_publish.run` itself never restores them (restoration is
delegated to the external `post-publish-global` script, outside this
code).  This contradicts the claim and `cli.py`'s own publish docstring
("Create Git commit and tags (skipped when flag `--dry-run` is set)"). -/
theorem claim4_dry_run_evaluation :
    (publishRun envDry).ok = true ∧
    PubEv.commitEv ∈ (publishRun envDry).trace ∧
    PubEv.tagEv "release@1.1.0" ∈ (publishRun envDry).trace ∧
    PubEv.pushEv ∉ (publishRun envDry).trace ∧
    getVal "A" (publishRun envDry).files = some ⟨"1.1.0", [], []⟩ ∧
    getVal "A" envDry.manifests = some ⟨"1.0.0", [], []⟩ := by
  decide

/-- C5 (amended): once the registry-selection stage has completed (the
point where `cleanup` is registered in `app_on_error`), any failure of
the remaining workflow makes the CLI wrapper run the handler — which
removes `package.json.bak` files and linked `.npmrc` copies, appending
exactly the cleanup events to the trace, without modifying the manifest
files — and exit with code 1. -/
theorem claim5_error_cleanup (env : PubEnv) (pubs : List (String × String))
    (hstage : pubStage1 env = .ok pubs)
    (hfail : (publishRun env).ok = false) :
    (publishRun env).registered = true ∧
    (cmdWrapperPublish env).exitCode = 1 ∧
    (cmdWrapperPublish env).trace =
      (publishRun env).trace ++ cleanupEvs (env.manifests.map Prod.fst) ∧
    (cmdWrapperPublish env).files = (publishRun env).files := by
  have hrun : publishRun env = pubRest env pubs := by
    unfold publishRun
    rw [hstage]
  have hreg : (publishRun env).registered = true := by
    rw [hrun]
    rfl
  refine ⟨hreg, ?_⟩
  unfold cmdWrapperPublish
  simp only [hfail, Bool.false_eq_true, if_false, hreg, if_true]
  refine ⟨?_, ?_, ?_⟩ <;> trivial

/-- Witness for C5 (amended): the concrete run `envFail`, failing at the
per-component pre-publish hook. -/
theorem claim5_error_cleanup_witness :
    (publishRun envFail).registered = true ∧
    (cmdWrapperPublish envFail).exitCode = 1 ∧
    (cmdWrapperPublish envFail).trace =
      (publishRun envFail).trace ++ cleanupEvs (envFail.manifests.map Prod.fst) ∧
    (cmdWrapperPublish envFail).files = (publishRun envFail).files :=
  claim5_error_cleanup envFail [("A", "2.0.0")] (by rfl) (by rfl)

/-- Counterexample for C5 as stated: in the failing run `envFail` the
handler has run and the process exits 1, yet component `A`'s manifest
still carries the new version `2.0.0` written by `update_version` — the
publish cleanup handler deletes backup and auth files but does not
restore any backed-up content. -/
theorem claim5_counterexample :
    (cmdWrapperPublish envFail).exitCode = 1 ∧
    getVal "A" (cmdWrapperPublish envFail).files = some ⟨"2.0.0", [], []⟩ ∧
    getVal "A" envFail.manifests = some ⟨"1.0.0", [], []⟩ := by
  decide

/-- C9: evaluation at the failing input — a component whose
`package-lock.json` does not exist when the run starts.  Staging silently
skips the lock-file backup (first conjunct), but the success-path cleanup
then calls `os.remove` on the never-created `package-lock.json.bak` and
raises `FileNotFoundError` (second conjunct); with a lock file present
the same cleanup completes and deletes exactly the created backups
(third conjunct). -/
theorem claim9_missing_lock_cleanup :
    backupComponentFiles ⟨"A", some ⟨"1.0.0", [], []⟩, none, none, none⟩ =
      .ok ⟨"A", some ⟨"1.0.0", [], []⟩, some ⟨"1.0.0", [], []⟩, none, none⟩ ∧
    cleanupOnSuccessComp ⟨"A", some ⟨"1.0.0", [], []⟩, some ⟨"1.0.0", [], []⟩, none, none⟩ =
      .error "FileNotFoundError: A/package-lock.json.bak" ∧
    cleanupOnSuccessComp ⟨"A", some ⟨"1.0.0", [], []⟩, some ⟨"1.0.0", [], []⟩,
        some "lock", some "lock"⟩ =
      .ok ⟨"A", some ⟨"1.0.0", [], []⟩, none, some "lock", none⟩ := by
  exact ⟨rfl, rfl, rfl⟩

/-! ### C10: `load_cli_config` -/

theorem any_eq_getVal_isSome {α : Type} (k : String) (l : List (String × α)) :
    (l.any fun p => p.1 = k) = (getVal k l).isSome := by
  induction l with
  | nil => rfl
  | cons p rest ih =>
    obtain ⟨a, b⟩ := p
    by_cases h : a = k
    · subst h
      simp [getVal]
    · simp [getVal, h, ih]

theorem loadCliConfig_no_section (fields : List (String × Json))
    (h : getVal "repomaintain" fields = none) :
    loadCliConfig (.obj fields) = .ok ⟨none, none⟩ := by
  have hany : (fields.any fun p => p.1 = "repomaintain") = false := by
    rw [any_eq_getVal_isSome, h]
    rfl
  simp [loadCliConfig, pythonIn, hany]

theorem loadCliConfig_obj (fields o : List (String × Json))
    (hcfg : getVal "repomaintain" fields = some (.obj o)) :
    loadCliConfig (.obj fields) = .ok
      ⟨(match getVal "publish_mode" o with
        | some (.str s) => if s = "all" ∨ s = "independent" then some s else none
        | _ => none),
        getVal "publish_tag_name" o⟩ := by
  have hany : (fields.any fun p => p.1 = "repomaintain") = true := by
    rw [any_eq_getVal_isSome, hcfg]
    rfl
  simp only [loadCliConfig, pythonIn, pythonIndex, hany, if_true, hcfg]
  cases hpm : getVal "publish_mode" o with
  | none =>
    have hanym : (o.any fun p => p.1 = "publish_mode") = false := by
      rw [any_eq_getVal_isSome, hpm]
      rfl
    cases htn : getVal "publish_tag_name" o with
    | none =>
      have hanyt : (o.any fun p => p.1 = "publish_tag_name") = false := by
        rw [any_eq_getVal_isSome, htn]
        rfl
      simp [hanym, hanyt]
    | some tv =>
      have hanyt : (o.any fun p => p.1 = "publish_tag_name") = true := by
        rw [any_eq_getVal_isSome, htn]
        rfl
      simp [hanym, hanyt, htn, Except.map]
  | some pv =>
    have hanym : (o.any fun p => p.1 = "publish_mode") = true := by
      rw [any_eq_getVal_isSome, hpm]
      rfl
    cases htn : getVal "publish_tag_name" o with
    | none =>
      have hanyt : (o.any fun p => p.1 = "publish_tag_name") = false := by
        rw [any_eq_getVal_isSome, htn]
        rfl
      simp [hanym, hanyt, hpm, Except.map]
    | some tv =>
      have hanyt : (o.any fun p => p.1 = "publish_tag_name") = true := by
        rw [any_eq_getVal_isSome, htn]
        rfl
      simp [hanym, hanyt, hpm, htn, Except.map]

/-- C10 (amended): for every `scope.json` document whose `repomaintain`
entry, when present, is a JSON object, loading the CLI config succeeds
and returns a record whose `publish_mode` is `"all"`, `"independent"`,
or unset; a missing section, a missing key, or any other stored
`publish_mode` value maps to unset.  (When the `repomaintain` entry is a
non-object, loading raises instead — see the counterexample.) -/
theorem claim10_load_config (fields : List (String × Json))
    (hobj : ∀ v, getVal "repomaintain" fields = some v → ∃ o, v = Json.obj o) :
    (∃ r, loadCliConfig (.obj fields) = .ok r) ∧
    (∀ r, loadCliConfig (.obj fields) = .ok r →
      (r.publish_mode = some "all" ∨ r.publish_mode = some "independent" ∨
        r.publish_mode = none)) := by
  cases hcfg : getVal "repomaintain" fields with
  | none =>
    refine ⟨⟨⟨none, none⟩, loadCliConfig_no_section fields hcfg⟩, ?_⟩
    intro r hr
    rw [loadCliConfig_no_section fields hcfg] at hr
    rw [Except.ok.injEq] at hr
    rw [← hr]
    exact Or.inr (Or.inr rfl)
  | some cfg =>
    obtain ⟨o, rfl⟩ := hobj cfg hcfg
    refine ⟨⟨_, loadCliConfig_obj fields o hcfg⟩, ?_⟩
    intro r hr
    rw [loadCliConfig_obj fields o hcfg] at hr
    rw [Except.ok.injEq] at hr
    rw [← hr]
    cases hpm : getVal "publish_mode" o with
    | none => exact Or.inr (Or.inr rfl)
    | some pv =>
      cases pv with
      | str s =>
        by_cases hss : s = "all" ∨ s = "independent"
        · rcases hss with h1 | h1
          · subst h1
            simp
          · subst h1
            simp
        · simp [hss]
      | null => exact Or.inr (Or.inr rfl)
      | bool b => exact Or.inr (Or.inr rfl)
      | num n => exact Or.inr (Or.inr rfl)
      | arr xs => exact Or.inr (Or.inr rfl)
      | obj ys => exact Or.inr (Or.inr rfl)

/-- Witness for C10 (amended): a stored `publish_mode` of `"bogus"` maps
to unset rather than an error. -/
theorem claim10_load_config_witness :
    loadCliConfig (.obj [("repomaintain", .obj [("publish_mode", .str "bogus")])]) =
      .ok ⟨none, none⟩ ∧
    ((⟨none, none⟩ : CliConfigRec).publish_mode = some "all" ∨
      (⟨none, none⟩ : CliConfigRec).publish_mode = some "independent" ∨
      (⟨none, none⟩ : CliConfigRec).publish_mode = none) := by
  have h := claim10_load_config [("repomaintain", Json.obj [("publish_mode", Json.str "bogus")])]
    (fun v hv => ⟨[("publish_mode", Json.str "bogus")], (Option.some_inj.mp hv).symm⟩)
  exact ⟨rfl, h.2 ⟨none, none⟩ rfl⟩

/-- Counterexample for C10 as stated: a `repomaintain` entry holding the
string `"publish_mode"` passes the python `in` check (substring test on
strings) and then raises `TypeError` at `config['publish_mode']` — the
loader does not map every document content to a record. -/
theorem claim10_counterexample :
    loadCliConfig (.obj [("repomaintain", .str "publish_mode")]) =
      .error "TypeError: indices must be integers" := by
  exact rfl
